import Mathlib

/-!
# Verification of macpack's dependency patcher

A shallow embedding of `src/macpack/patcher.py` (the `collect` wave-based
dependency-graph builder, the `patch` planner/executor, `get_dest_and_loader_path`
and `main`), together with theorems settling the specification claims.

Python objects with identity are embedded as indices (`Nat`) into an arena
(`List Node`); mutation becomes explicit arena updates.  The `Dependency` class
lives in `macpack/dependency.py`, which is not part of the given sources; its
operations (`__eq__`, `merge`, `find_dependencies`, `is_sys`,
`get_direct_dependencies`, `get_dependencies`) are modelled from the spec and
are marked `Modelled from the spec:` below.  The subprocess primitives
(`install_name_tool`, file copies) are external collaborators and appear as the
argument lists / copy lists the code hands to them.
-/

namespace Macpack

/-- `str(PurePath(a) / b)` for the joins performed by the patcher (the right
operand is never absolute there). -/
def pjoin (a b : String) : String := a ++ "/" ++ b

/-- Split a character list at `/`, mirroring `str.split` with separator `/`
(a structural recursion, so that the kernel can evaluate paths). -/
def splitSlash : List Char → List (List Char)
  | [] => [[]]
  | c :: cs =>
    match splitSlash cs with
    | [] => [[]]
    | h :: t => if c = '/' then [] :: h :: t else (c :: h) :: t

/-- `p.split("/")` as a list of strings. -/
def splitOnSlash (p : String) : List String :=
  (splitSlash p.data).map (fun l => ⟨l⟩)

/-- Join components with `/` (the inverse of `splitOnSlash` on nonempty
component lists). -/
def joinSlash : List String → String
  | [] => ""
  | [c] => c
  | c :: cs => c ++ "/" ++ joinSlash cs

/-- `PurePath(p).name`: the final path component. -/
def basename (p : String) : String := (splitOnSlash p).getLastD ""

/-- `PurePath(p).parent` for the paths the patcher handles. -/
def parentPath (p : String) : String :=
  match (splitOnSlash p).dropLast with
  | [] => "."
  | [""] => "/"
  | cs => joinSlash cs

/-- `PurePath(p).is_absolute()` on posix: the raw path begins with `/`. -/
def isAbsolute (p : String) : Bool := p.data.head? == some '/'

/-- `posixpath.normpath` on the components of an absolute path: drop empty and
`.` components and resolve `..` against the accumulated stack. -/
def normComps (cs : List String) : List String :=
  cs.foldl
    (fun acc c =>
      if c = "" ∨ c = "." then acc
      else if c = ".." then acc.dropLast
      else acc ++ [c]) []

/-- Length of the common prefix of two component lists. -/
def commonLen : List String → List String → Nat
  | a :: as', b :: bs => if a = b then commonLen as' bs + 1 else 0
  | _, _ => 0

/-- `os.path.relpath(path, start)` for absolute `path` and `start`. -/
def relpath (path start : String) : String :=
  let p := normComps (splitOnSlash path)
  let s := normComps (splitOnSlash start)
  let i := commonLen p s
  let rel := List.replicate (s.length - i) ".." ++ p.drop i
  if rel.isEmpty then "." else joinSlash rel

/-- One `Dependency` object: its resolved canonical path, the reference strings
consumers use for it, and its outgoing edges as arena indices.

Modelled from the spec: the data model of a Dependency Node (`canonicalPath`,
`referredAs`, `outgoingEdges`); the class itself is in `macpack/dependency.py`,
which is not among the given sources. -/
structure Node where
  path : String
  referred_as : List String
  dependencies : List Nat
deriving Repr, DecidableEq, Inhabited

/-- The external world `collect` runs against: for each canonical path, the
resolvable references of that binary (`deps`, pairs of reference string and
resolved canonical path), the unresolvable reference strings (`fails`), and the
system-library classification (`sys`).

Modelled from the spec: the Inspection Collaborator contract
`inspect(node) -> (references, unresolved)` and the system-library predicate. -/
structure World where
  deps : String → List (String × String)
  fails : String → List String
  sys : String → Bool

def getNode (a : List Node) (i : Nat) : Node := a.getD i ⟨"", [], []⟩

def setNode (a : List Node) (i : Nat) (n : Node) : List Node := a.set i n

def pathAt (a : List Node) (i : Nat) : String := (getNode a i).path

def pathsAt (a : List Node) (l : List Nat) : List String := l.map (pathAt a)

/-- `Dependency(referred_path, path)` as constructed by `main`.

Modelled from the spec: a freshly constructed node records the single reference
string it was discovered by, and has no edges yet. -/
def mkDependency (referredPath path : String) : Node := ⟨path, [referredPath], []⟩

/-- `Dependency.merge`: add the other node's reference strings to this node.

Modelled from the spec: "merge: add the new reference string to the existing
node's `referredAs`"; `referredAs` is a set of distinct strings, so only
strings not already present are appended. -/
def mergeRefs (xs ys : List String) : List String :=
  xs ++ ys.filter (fun r => !xs.contains r)

/-- First element of `ids` equal (by `Dependency.__eq__`) to a node with path
`q`; models `lst[lst.index(dep)]` preceded by `dep in lst`.

Modelled from the spec: node equality is canonical-path equality ("Two nodes
with equal `canonicalPath` are the same logical dependency"). -/
def findSame (a : List Node) (q : String) : List Nat → Option Nat
  | [] => none
  | i :: is' => if pathAt a i = q then some i else findSame a q is'

/-- `lst.index(dep)` over a list of edge indices, comparing by canonical path. -/
def indexOfPath (a : List Node) (q : String) : List Nat → Option Nat
  | [] => none
  | j :: js => if pathAt a j = q then some 0 else (indexOfPath a q js).map (· + 1)

/-- `Dependency.merge` applied to the node at `e`: the discovered node's
reference strings are folded into the existing node's `referred_as`. -/
def mergeAt (a : List Node) (e depId : Nat) : List Node :=
  setNode a e
    { getNode a e with
      referred_as := mergeRefs (getNode a e).referred_as (getNode a depId).referred_as }

/-- `item.dependencies[item.dependencies.index(dep)] = existing_dep`: rewire
the consumer's edge for the dependency with path `q` onto the node `e`. -/
def rewireAt (a : List Node) (itemId : Nat) (q : String) (e : Nat) : List Node :=
  match indexOfPath a q (getNode a itemId).dependencies with
  | some k => setNode a itemId
      { getNode a itemId with dependencies := (getNode a itemId).dependencies.set k e }
  | none => a

/-- The body of `collect`'s inner `for dep in item_deps` loop (patcher.py
lines 38-54): skip system libraries; otherwise look the dependency up first in
`all_resolved`, then in `to_resolve`; on a hit, merge the reference strings
into the existing node and rewire the consumer's edge at
`item.dependencies.index(dep)` to it; on a miss, queue the fresh node. -/
def processDep (w : World) (resolvedIds : List Nat) (itemId : Nat)
    (st : List Node × List Nat) (depId : Nat) : List Node × List Nat :=
  if w.sys (getNode st.1 depId).path then st
  else
    match (findSame st.1 (getNode st.1 depId).path resolvedIds).orElse
        (fun _ => findSame st.1 (getNode st.1 depId).path st.2) with
    | some e =>
        (rewireAt (mergeAt st.1 e depId) itemId (getNode st.1 depId).path e, st.2)
    | none => (st.1, st.2 ++ [depId])

/-- The inner loop over one item's discovered dependencies. -/
def processDeps (w : World) (resolvedIds : List Nat) (itemId : Nat) :
    List Node × List Nat → List Nat → List Node × List Nat
  | st, [] => st
  | st, d :: ds => processDeps w resolvedIds itemId (processDep w resolvedIds itemId st d) ds

/-- The `for item, item_deps in zip(current_items, current_items_deps)` loop. -/
def processItems (w : World) (resolvedIds : List Nat) :
    List Node × List Nat → List (Nat × List Nat) → List Node × List Nat
  | st, [] => st
  | st, p :: ps => processItems w resolvedIds (processDeps w resolvedIds p.1 st p.2) ps

/-- `asyncio.gather(*[d.find_dependencies() for d in current_items])`: for each
item, create one fresh node per resolvable reference of its binary, set the
item's edge list to those fresh nodes, and collect the unresolvable paths.

Modelled from the spec: `find_dependencies` itself is in
`macpack/dependency.py` (not among the given sources); per the Inspection
Collaborator contract it returns the declared references resolved to canonical
paths plus the unresolvable reference strings.  System libraries are still
reported here (collect filters them with `is_sys`). -/
def gatherFind (w : World) (a : List Node) :
    List Nat → List Node × List (List Nat) × List String
  | [] => (a, [], [])
  | id :: rest =>
    let p := pathAt a id
    let fresh := (w.deps p).map (fun rc => Node.mk rc.2 [rc.1] [])
    let ids := (List.range fresh.length).map (· + a.length)
    let a2 := setNode (a ++ fresh) id { getNode a id with dependencies := ids }
    let r := gatherFind w a2 rest
    (r.1, ids :: r.2.1, w.fails p ++ r.2.2)

/-- The state of `collect`: the arena of nodes, `all_resolved`, the `stack` of
pending frontiers, and `failed_paths`. -/
structure CState where
  arena : List Node
  resolved : List Nat
  stack : List (List Nat)
  failed : List String
deriving Repr, DecidableEq, Inhabited

/-- One iteration of `collect`'s `while` loop on the popped frontier
`current`: append it to `all_resolved`, run all inspections, process every
discovered dependency, and push the queued new nodes as the next frontier. -/
def collectStep (w : World) (s : CState) (current : List Nat) : CState :=
  let resolved1 := s.resolved ++ current
  let g := gatherFind w s.arena current
  let st2 := processItems w resolved1 (g.1, []) (current.zip g.2.1)
  let stack1 := if st2.2.isEmpty then s.stack.dropLast else s.stack.dropLast ++ [st2.2]
  ⟨st2.1, resolved1, stack1, s.failed ++ g.2.2⟩

/-- `collect`'s `while len(stack) > 0` loop, with explicit fuel; `stack.pop()`
pops the last frontier.  Returns `none` only when the fuel runs out with work
still pending. -/
def collectLoop (w : World) : Nat → CState → Option CState
  | 0, s => if s.stack.isEmpty then some s else none
  | fuel + 1, s =>
    match s.stack.getLast? with
    | none => some s
    | some current => collectLoop w fuel (collectStep w s current)

/-- `collect(root_dep)` (patcher.py lines 18-57): arena initially holds only
the root, the stack starts as `[[root_dep]]`. -/
def collect (w : World) (fuel : Nat) (root : Node) : Option CState :=
  collectLoop w fuel ⟨[⟨root.path, root.referred_as, []⟩], [], [[0]], []⟩

/-- The stderr lines printed at the end of `collect` (patcher.py lines 59-66):
nothing when no path failed; otherwise two summary lines followed either by one
`Could not resolve …` line per failed path (verbose) or by a pointer to `-v`. -/
def collectWarnLines (rootName : String) (verbose : Bool) (failed : List String) :
    List String :=
  if failed.isEmpty then []
  else
    ["Some of the paths in the dependency tree could not be resolved",
     "Maybe you already bundled " ++ rootName ++ "?"] ++
    (if verbose then failed.map (fun p => "Could not resolve " ++ p)
     else ["Run with -v to see failed paths"])

/-- `collect` together with its warning output. -/
def collectOutput (w : World) (fuel : Nat) (root : Node) (verbose : Bool) :
    Option (CState × List String) :=
  match collect w fuel root with
  | none => none
  | some st => some (st, collectWarnLines (basename root.path) verbose st.failed)

/-- `Dependency.get_direct_dependencies`: the node's edges without system
libraries.

Modelled from the spec: `outgoingEdges` are the "direct, non-system
dependencies"; system nodes are "never added as edges". -/
def getDirectDependencies (w : World) (a : List Node) (i : Nat) : List Nat :=
  (getNode a i).dependencies.filter (fun j => !w.sys (pathAt a j))

/-- Breadth-first worker for `get_dependencies`, deduplicating by canonical
path and skipping the root. -/
def getDepsAux (w : World) (a : List Node) (rootPath : String) :
    Nat → List Nat → List Nat → List Nat
  | 0, acc, _ => acc
  | _ + 1, acc, [] => acc
  | fuel + 1, acc, q :: qs =>
    if pathAt a q = rootPath ∨ pathAt a q ∈ pathsAt a acc then
      getDepsAux w a rootPath fuel acc qs
    else
      getDepsAux w a rootPath fuel (acc ++ [q]) (qs ++ getDirectDependencies w a q)

/-- `Dependency.get_dependencies` seen from the root: the deduplicated set of
non-system nodes reachable from it, in discovery order, without the root.

Modelled from the spec: "`resolved`: the final deduplicated set of all
non-system nodes reachable from root (closure), in discovery order" and
"Return *resolved* minus the root as the dependency set". -/
def getDependencies (w : World) (a : List Node) (gfuel : Nat) (rootId : Nat) :
    List Nat :=
  getDepsAux w a (pathAt a rootId) gfuel [] (getDirectDependencies w a rootId)

/-- The `(old reference, new reference)` pairs the `patch` loop turns into
`-change` directives for one item (patcher.py lines 92-96): for every
non-system edge and every string in the edge target's `referred_as`, the new
reference joins the target's file name onto `@loader_path`, except that the
root consumer uses `root_loader_path` and an edge back onto the root always
uses `@loader_path`. -/
def changeTriples (w : World) (a : List Node) (rootId : Nat)
    (rootLoaderPath : String) (itemId : Nat) : List (String × String) :=
  ((getDirectDependencies w a itemId).map (fun depId =>
    (getNode a depId).referred_as.map (fun reference =>
      let newPath := if pathAt a itemId = pathAt a rootId then rootLoaderPath
                     else "@loader_path"
      let newPath := if pathAt a depId = pathAt a rootId then "@loader_path"
                     else newPath
      (reference, pjoin newPath (basename (pathAt a depId)))))).flatten

/-- The full `install_name_tool` argument list built for one item (patcher.py
lines 81-96): the target file (root in place, others in the destination
directory), the `-id` directive, and one `-change` directive per recorded
reference of each non-system edge. -/
def patchArgsFor (w : World) (a : List Node) (rootId : Nat)
    (destPath rootLoaderPath : String) (itemId : Nat) : List String :=
  let target := if pathAt a itemId = pathAt a rootId then pathAt a itemId
                else pjoin destPath (basename (pathAt a itemId))
  ["install_name_tool", target, "-id", pjoin "@loader_path" (basename (pathAt a itemId))] ++
  ((changeTriples w a rootId rootLoaderPath itemId).map
    (fun rn => ["-change", rn.1, rn.2])).flatten

/-- Everything `patch` (patcher.py lines 74-114) does, with the subprocess
modelled by `prim` (argument list to return code and stderr text): the
destination directory creation, the copies of the non-root items, the
invocation per item, the `Error patching …` stderr lines for the failing ones
(plus the tool's stderr when verbose), and whether `PatchError` is raised. -/
structure PatchOutcome where
  mkdirs : List String
  copies : List (String × String)
  invocations : List (List String)
  results : List (Int × String)
  errLines : List String
  errored : Bool
deriving Repr, DecidableEq, Inhabited

def patchRun (w : World) (a : List Node) (rootId : Nat)
    (destPath rootLoaderPath : String) (gfuel : Nat) (verbose : Bool)
    (prim : List String → Int × String) : PatchOutcome :=
  let items := rootId :: getDependencies w a gfuel rootId
  let copies := (items.filter (fun i => !(pathAt a i = pathAt a rootId))).map
    (fun i => (pathAt a i, pjoin destPath (basename (pathAt a i))))
  let invs := items.map (patchArgsFor w a rootId destPath rootLoaderPath)
  let results := invs.map prim
  let errLines := ((items.zip results).map (fun pr =>
    if pr.2.1 ≠ 0 then
      ("Error patching " ++ basename (pathAt a pr.1)) ::
        (if verbose then [pr.2.2] else [])
    else [])).flatten
  { mkdirs := [destPath], copies := copies, invocations := invs,
    results := results, errLines := errLines,
    errored := results.any (fun r => decide (r.1 ≠ 0)) }

/-- `get_dest_and_loader_path` (patcher.py lines 148-156). -/
def get_dest_and_loader_path (rootDepPath destArg : String) : String × String :=
  if isAbsolute destArg then (destArg, destArg)
  else
    let destPath := pjoin (parentPath rootDepPath) destArg
    (destPath, pjoin "@loader_path" (relpath destPath (parentPath rootDepPath)))

/-- `'{} total non-system dependenc{}'` count line shared by both listings. -/
def countLine (n : Nat) : String :=
  toString n ++ " total non-system dependenc" ++ (if n = 1 then "y" else "ies")

/-- Join strings with `", "`, as `", ".join(...)` does. -/
def joinComma : List String → String
  | [] => ""
  | [c] => c
  | c :: cs => c ++ ", " ++ joinComma cs

/-- The `str(deps.index(d) + 1)` slot strings of `print_deps_minimal`; `none`
when some direct dependency is absent from the resolved listing (Python would
raise `ValueError`). -/
def slotStrings (a : List Node) (deps : List Nat) : List Nat → Option (List String)
  | [] => some []
  | d :: ds =>
    match indexOfPath a (pathAt a d) deps, slotStrings a deps ds with
    | some k, some rest => some (toString (k + 1) :: rest)
    | _, _ => none

def minimalLines (w : World) (a : List Node) (deps : List Nat) :
    Nat → List Nat → Option (List String)
  | _, [] => some []
  | i, dp :: rest =>
    match slotStrings a deps (getDirectDependencies w a dp),
          minimalLines w a deps (i + 1) rest with
    | some slots, some ls =>
        some ((toString (i + 1) ++ "\t" ++ basename (pathAt a dp) ++ " -> " ++
          (if slots.isEmpty then "No dependencies" else joinComma slots)) :: ls)
    | _, _ => none

/-- `print_deps_minimal` (patcher.py lines 117-125). -/
def printDepsMinimal (w : World) (a : List Node) (gfuel : Nat) (rootId : Nat) :
    Option (List String) :=
  let deps := getDependencies w a gfuel rootId
  (minimalLines w a deps 0 deps).map (fun ls => countLine deps.length :: ls)

/-- `print_deps` (patcher.py lines 128-136). -/
def printDepsVerbose (w : World) (a : List Node) (gfuel : Nat) (rootId : Nat) :
    List String :=
  let deps := getDependencies w a gfuel rootId
  countLine deps.length ::
    (deps.map (fun dp =>
      basename (pathAt a dp) ::
        (getDependencies w a gfuel dp).map (fun dd => "-> " ++ basename (pathAt a dd)))).flatten

/-- `prepatch_output` (patcher.py lines 139-145). -/
def prepatchOutput (w : World) (a : List Node) (gfuel : Nat) (rootId : Nat)
    (fileArg : String) (verbose : Bool) : Option (List String) :=
  if verbose then some (("Patching " ++ fileArg) :: printDepsVerbose w a gfuel rootId)
  else (printDepsMinimal w a gfuel rootId).map (fun ls => ("Patching " ++ fileArg) :: ls)

/-- The observable outcome of one `main` run: exit code, both output streams,
and the external effects requested (copies, subprocess invocations, directory
creations). -/
structure MainResult where
  exitCode : Nat
  stdoutLines : List String
  stderrLines : List String
  copies : List (String × String)
  invocations : List (List String)
  mkdirs : List String
deriving Repr, DecidableEq, Inhabited

/-- `main` (patcher.py lines 159-185): missing input exits 1 before any
discovery; otherwise collect, report, and unless `--dry-run` run the patch
phase, exiting 1 when `PatchError` was raised.  `fileExists` stands for
`PosixPath(args.file).resolve(strict=True)` succeeding with `rootPath`. -/
def mainRun (w : World) (fuel gfuel : Nat) (fileExists : Bool)
    (fileArg rootPath destArg : String) (verbose dryRun : Bool)
    (prim : List String → Int × String) : Option MainResult :=
  if !fileExists then
    some ⟨1, [], [fileArg ++ " does not exist!"], [], [], []⟩
  else
    match collectOutput w fuel (mkDependency fileArg rootPath) verbose with
    | none => none
    | some (st, warnLines) =>
      let dl := get_dest_and_loader_path rootPath destArg
      match prepatchOutput w st.arena gfuel 0 fileArg verbose with
      | none => none
      | some preLines =>
        if dryRun then some ⟨0, preLines, warnLines, [], [], []⟩
        else
          let out := patchRun w st.arena 0 dl.1 dl.2 gfuel verbose prim
          if out.errored then
            some ⟨1, preLines,
              warnLines ++ out.errLines ++
                (if verbose then [] else ["Run with -v for more information"]),
              out.copies, out.invocations, out.mkdirs⟩
          else
            let n := (getDependencies w st.arena gfuel 0).length
            some ⟨0,
              preLines ++ ["",
                basename fileArg ++ " + " ++ toString n ++ " dependenc" ++
                  (if n = 1 then "y" else "ies") ++ " successfully patched"],
              warnLines, out.copies, out.invocations, out.mkdirs⟩

/-- Modelled from the spec: the Patch Planner's three-case rule for one
rewritten reference string ("if `dependency == root` … else if
`consumer == root` … else …"). -/
def plannedNewRef (rootPath rootLoaderPath itemPath depPath : String) : String :=
  if depPath = rootPath then pjoin "@loader_path" (basename rootPath)
  else if itemPath = rootPath then pjoin rootLoaderPath (basename depPath)
  else pjoin "@loader_path" (basename depPath)

/-- Modelled from the spec: the full invocation the Patch Planner prescribes
for one item — target file, `newIdentifier` as the loader marker joined with
the item's declared name, and one rewrite per recorded reference of each
outgoing edge, with the new string given by the three-case rule. -/
def plannedArgs (w : World) (a : List Node) (rootId : Nat)
    (destPath rootLoaderPath : String) (itemId : Nat) : List String :=
  ["install_name_tool",
    if pathAt a itemId = pathAt a rootId then pathAt a itemId
    else pjoin destPath (basename (pathAt a itemId)),
    "-id", pjoin "@loader_path" (basename (pathAt a itemId))] ++
  ((getDirectDependencies w a itemId).map (fun depId =>
    ((getNode a depId).referred_as.map (fun reference =>
      ["-change", reference,
        plannedNewRef (pathAt a rootId) rootLoaderPath (pathAt a itemId)
          (pathAt a depId)])).flatten)).flatten

/-- The parts of a `collect` state that do not concern `failed_paths`. -/
def eraseFailed (st : CState) : List Node × List Nat × List (List Nat) :=
  (st.arena, st.resolved, st.stack)

/-! Concrete worlds used to exhibit counterexamples and witnesses. -/

/-- The root binary references the same resolved library `/a` by two distinct
strings. -/
def wDup : World :=
  ⟨fun p => if p = "/r" then [("a1", "/a"), ("a2", "/a")] else [],
   fun _ => [], fun _ => false⟩

def rootDup : Node := mkDependency "r" "/r"

def stDup : CState := (collect wDup 3 rootDup).getD default

/-- A reference cycle `/r → /a → /b → /a`. -/
def wCyc : World :=
  ⟨fun p => if p = "/r" then [("a", "/a")]
    else if p = "/a" then [("b", "/b")]
    else if p = "/b" then [("a", "/a")] else [],
   fun _ => [], fun _ => false⟩

def rootCyc : Node := mkDependency "r" "/r"

def stCyc : CState := (collect wCyc 4 rootCyc).getD default

/-- Two consumers (`/r` and `/y`) reference `/c` by distinct strings. -/
def wAcc : World :=
  ⟨fun p => if p = "/r" then [("r1", "/c"), ("y", "/y")]
    else if p = "/y" then [("r2", "/c")] else [],
   fun _ => [], fun _ => false⟩

def rootAcc : Node := mkDependency "r" "/r"

def stAcc : CState := (collect wAcc 3 rootAcc).getD default

/-- End-to-end scenario 1: `/d/app` depends on the non-system
`/d/libfoo.dylib` and the system `/usr/lib/libSystem.B.dylib`. -/
def wScn1 : World :=
  ⟨fun p => if p = "/d/app" then
      [("libfoo.dylib", "/d/libfoo.dylib"),
       ("/usr/lib/libSystem.B.dylib", "/usr/lib/libSystem.B.dylib")]
    else [],
   fun _ => [], fun p => "/usr/lib".data.isPrefixOf p.data⟩

def rootScn1 : Node := mkDependency "app" "/d/app"

def stScn1 : CState := (collect wScn1 3 rootScn1).getD default

/-- A run whose root binary itself sits in a reserved system location. -/
def wSysRoot : World :=
  ⟨fun _ => [], fun _ => [], fun p => "/usr/lib".data.isPrefixOf p.data⟩

def rootSysRoot : Node := mkDependency "r" "/usr/lib/r"

def stSysRoot : CState := (collect wSysRoot 2 rootSysRoot).getD default

/-- A run with one unresolvable reference reported for the root. -/
def wFail : World :=
  ⟨fun p => if p = "/r" then [("x", "/x")] else [],
   fun p => if p = "/r" then ["@rpath/libB.dylib"] else [],
   fun _ => false⟩

def rootFail : Node := mkDependency "r" "/r"

def stFail : CState := ((collectOutput wFail 3 rootFail false).getD default).1

def warnFail : List String := ((collectOutput wFail 3 rootFail false).getD default).2

/-- `wFail` with the unresolvable reference gone, for the frame property. -/
def wFailNone : World :=
  ⟨fun p => if p = "/r" then [("x", "/x")] else [],
   fun _ => [], fun _ => false⟩

/-- The subprocess stub used in witnesses: patching the bundled copy of
`/c` fails, everything else succeeds. -/
def primFailC : List String → Int × String :=
  fun args => if args.getD 1 "" = "/libs/c" then (1, "boom") else (0, "")

/-- Reachability in the world by reference chains whose every step lands on a
non-system library: the transitive closure of the root's non-system
dependencies (together with the root itself). -/
inductive NsReach (w : World) (start : String) : String → Prop
  | refl : NsReach w start start
  | step {q r : String} (s : String) : NsReach w start q → (s, r) ∈ w.deps q →
      w.sys r = false → NsReach w start r

/-- Reachability of a node from the root through the closed graph's outgoing
edges (`get_direct_dependencies`). -/
inductive ReachesId (w : World) (a : List Node) (root : Nat) : Nat → Prop
  | refl : ReachesId w a root root
  | step {j e : Nat} : ReachesId w a root j → e ∈ getDirectDependencies w a j →
      ReachesId w a root e

/-! ## Basic facts about the arena operations -/

theorem length_setNode (a : List Node) (i : Nat) (n : Node) :
    (setNode a i n).length = a.length := List.length_set a i n

theorem getNode_setNode_self {a : List Node} {i : Nat} (n : Node) (h : i < a.length) :
    getNode (setNode a i n) i = n := by
  simp [getNode, setNode, List.getD_eq_getElem?_getD, List.getElem?_set_self h]

theorem getNode_setNode_ne {a : List Node} {i j : Nat} (n : Node) (h : i ≠ j) :
    getNode (setNode a i n) j = getNode a j := by
  simp [getNode, setNode, List.getD_eq_getElem?_getD, List.getElem?_set_ne h]

theorem getNode_append_left {a b : List Node} {i : Nat} (h : i < a.length) :
    getNode (a ++ b) i = getNode a i := by
  simp [getNode, List.getD_eq_getElem?_getD, List.getElem?_append, h]

theorem getNode_append_right {a b : List Node} {i : Nat} (h : a.length ≤ i) :
    getNode (a ++ b) i = getNode b (i - a.length) := by
  simp [getNode, List.getD_eq_getElem?_getD, List.getElem?_append_right h]

theorem getNode_out {a : List Node} {i : Nat} (h : a.length ≤ i) :
    getNode a i = ⟨"", [], []⟩ := by
  simp [getNode, List.getD_eq_getElem?_getD, List.getElem?_eq_none h]

theorem mem_of_set {x e : Nat} :
    ∀ (l : List Nat) (k : Nat), x ∈ l.set k e → x ∈ l ∨ x = e := by
  intro l
  induction l with
  | nil => intro k h; simp at h
  | cons y ys ih =>
    intro k h
    cases k with
    | zero =>
      rcases List.mem_cons.mp h with rfl | hmem
      · exact Or.inr rfl
      · exact Or.inl (List.mem_cons_of_mem _ hmem)
    | succ k' =>
      rcases List.mem_cons.mp h with rfl | hmem
      · exact Or.inl (List.mem_cons_self _ _)
      · rcases ih k' hmem with h1 | h1
        · exact Or.inl (List.mem_cons_of_mem _ h1)
        · exact Or.inr h1

theorem pathAt_setNode_ne {a : List Node} {i j : Nat} (n : Node) (h : i ≠ j) :
    pathAt (setNode a i n) j = pathAt a j := by
  simp [pathAt, getNode_setNode_ne n h]

theorem pathAt_setNode_self {a : List Node} {i : Nat} (n : Node) (h : i < a.length) :
    pathAt (setNode a i n) i = n.path := by
  simp [pathAt, getNode_setNode_self n h]

theorem pathsAt_congr {a a' : List Node} {l : List Nat}
    (h : ∀ i ∈ l, pathAt a' i = pathAt a i) : pathsAt a' l = pathsAt a l := by
  simp only [pathsAt]
  exact List.map_congr_left h

theorem mem_pathsAt {a : List Node} {l : List Nat} {q : String} :
    q ∈ pathsAt a l ↔ ∃ i ∈ l, pathAt a i = q := by
  simp [pathsAt]

/-! ## `findSame`, `indexOfPath`, `mergeRefs` -/

theorem findSame_eq_none {a : List Node} {q : String} :
    ∀ {l : List Nat}, findSame a q l = none ↔ q ∉ pathsAt a l := by
  intro l
  induction l with
  | nil => simp [findSame, pathsAt]
  | cons i is ih =>
    by_cases h : pathAt a i = q
    · simp [findSame, h, pathsAt]
    · simp only [findSame, if_neg h, ih, pathsAt, List.map_cons, List.mem_cons]
      constructor
      · rintro hq (h1 | h2)
        · exact h h1.symm
        · exact hq h2
      · intro hq h2
        exact hq (Or.inr h2)

theorem findSame_some {a : List Node} {q : String} :
    ∀ {l : List Nat} {e : Nat}, findSame a q l = some e → e ∈ l ∧ pathAt a e = q := by
  intro l
  induction l with
  | nil => intro e h; simp [findSame] at h
  | cons i is ih =>
    intro e h
    by_cases hi : pathAt a i = q
    · simp only [findSame, if_pos hi, Option.some.injEq] at h
      exact ⟨by simp [← h], h ▸ hi⟩
    · simp only [findSame, if_neg hi] at h
      obtain ⟨h1, h2⟩ := ih h
      exact ⟨List.mem_cons_of_mem _ h1, h2⟩

theorem mem_mergeRefs_left {xs ys : List String} {r : String} (h : r ∈ xs) :
    r ∈ mergeRefs xs ys := List.mem_append_left _ h

theorem mem_mergeRefs_right {xs ys : List String} {r : String} (h : r ∈ ys) :
    r ∈ mergeRefs xs ys := by
  by_cases hx : r ∈ xs
  · exact List.mem_append_left _ hx
  · refine List.mem_append_right _ ?_
    simp only [List.mem_filter, Bool.not_eq_eq_eq_not, Bool.not_true]
    exact ⟨h, by simpa using hx⟩

theorem mergeRefs_nodup {xs ys : List String} (hx : xs.Nodup) (hy : ys.Nodup) :
    (mergeRefs xs ys).Nodup := by
  rw [mergeRefs, List.nodup_append]
  refine ⟨hx, hy.filter _, ?_⟩
  intro r hr hr'
  have h2 := (List.mem_filter.mp hr').2
  simp only [Bool.not_eq_eq_eq_not, Bool.not_true] at h2
  rw [List.contains_eq_any_beq] at h2
  simp only [List.any_eq_false, beq_iff_eq] at h2
  exact h2 r hr rfl

theorem indexOfPath_exists (a : List Node) (q : String) :
    ∀ (pre : List Nat) (d : Nat) (rest : List Nat), pathAt a d = q →
      ∃ k, indexOfPath a q (pre ++ d :: rest) = some k ∧ k ≤ pre.length ∧
        pathAt a ((pre ++ d :: rest).getD k 0) = q := by
  intro pre
  induction pre with
  | nil =>
    intro d rest hd
    exact ⟨0, by simp [indexOfPath, hd], Nat.le_refl _, by simpa using hd⟩
  | cons y pre' ih =>
    intro d rest hd
    by_cases hy : pathAt a y = q
    · exact ⟨0, by simp [indexOfPath, hy], Nat.zero_le _, by simpa using hy⟩
    · obtain ⟨k, hk1, hk2, hk3⟩ := ih d rest hd
      refine ⟨k + 1, ?_, Nat.succ_le_succ hk2, by simpa using hk3⟩
      simp [indexOfPath, hy, hk1]

theorem indexOfPath_first {a : List Node} {q : String} :
    ∀ (pre : List Nat) (d : Nat) (rest : List Nat), pathAt a d = q →
      (∀ y ∈ pre, pathAt a y ≠ q) →
      indexOfPath a q (pre ++ d :: rest) = some pre.length := by
  intro pre
  induction pre with
  | nil => intro d rest hd _; simp [indexOfPath, hd]
  | cons y pre' ih =>
    intro d rest hd hpre
    have hy : pathAt a y ≠ q := hpre y (List.mem_cons_self y pre')
    have h2 := ih d rest hd (fun z hz => hpre z (List.mem_cons_of_mem _ hz))
    simp [indexOfPath, hy, h2]

theorem set_append_cons_self (pre : List Nat) (d e : Nat) (rest : List Nat) :
    (pre ++ d :: rest).set pre.length e = pre ++ e :: rest := by
  induction pre with
  | nil => simp
  | cons y pre' ih => simp [List.set, ih]

theorem set_append_cons_lt (pre : List Nat) (d e : Nat) (rest : List Nat) {k : Nat}
    (hk : k < pre.length) :
    (pre ++ d :: rest).set k e = pre.set k e ++ d :: rest := by
  induction pre generalizing k with
  | nil => simp at hk
  | cons y pre' ih =>
    cases k with
    | zero => simp [List.set]
    | succ k' =>
      have : k' < pre'.length := Nat.lt_of_succ_lt_succ hk
      simp [List.set, ih this]

theorem getD_mem_of_lt {α : Type _} :
    ∀ (l : List α) (k : Nat) (d : α), k < l.length → l.getD k d ∈ l := by
  intro l
  induction l with
  | nil => intro k d h; simp at h
  | cons x xs ih =>
    intro k d h
    cases k with
    | zero => simp [List.getD]
    | succ k' =>
      exact List.mem_cons_of_mem x (ih k' d (Nat.lt_of_succ_lt_succ h))

theorem list_set_of_getD_eq {α : Type _} :
    ∀ (l : List α) (k : Nat) (x dflt : α), l.getD k dflt = x → k < l.length →
      l.set k x = l := by
  intro l
  induction l with
  | nil => intro k x d _ h; simp at h
  | cons y ys ih =>
    intro k x d hget h
    cases k with
    | zero => simp [List.getD] at hget; simp [List.set, hget]
    | succ k' =>
      simp only [List.getD] at hget
      simp [List.set, ih k' x d hget (Nat.lt_of_succ_lt_succ h)]

theorem pathsAt_set (a : List Node) (l : List Nat) (k e : Nat) :
    pathsAt a (l.set k e) = (pathsAt a l).set k (pathAt a e) := List.map_set

theorem indexOfPath_some {a : List Node} {q : String} :
    ∀ {l : List Nat} {k : Nat}, indexOfPath a q l = some k →
      k < l.length ∧ pathAt a (l.getD k 0) = q := by
  intro l
  induction l with
  | nil => intro k h; simp [indexOfPath] at h
  | cons j js ih =>
    intro k h
    by_cases hj : pathAt a j = q
    · simp only [indexOfPath, if_pos hj, Option.some.injEq] at h
      subst h
      exact ⟨Nat.succ_pos _, by simpa using hj⟩
    · simp only [indexOfPath, if_neg hj, Option.map_eq_some'] at h
      obtain ⟨k', hk', rfl⟩ := h
      obtain ⟨h1, h2⟩ := ih hk'
      exact ⟨Nat.succ_lt_succ h1, by simpa using h2⟩

/-! ## Frame lemmas for `mergeAt` and `rewireAt` -/

theorem length_mergeAt (a : List Node) (e d : Nat) :
    (mergeAt a e d).length = a.length := length_setNode ..

theorem pathAt_mergeAt (a : List Node) (e d : Nat) (i : Nat) :
    pathAt (mergeAt a e d) i = pathAt a i := by
  by_cases h : e = i
  · subst h
    by_cases he : e < a.length
    · simp [pathAt, mergeAt, getNode_setNode_self _ he]
    · simp [mergeAt, setNode, pathAt, getNode,
        List.set_eq_of_length_le (Nat.le_of_not_lt he)]
  · simp [pathAt, mergeAt, getNode_setNode_ne _ h]

theorem deps_mergeAt (a : List Node) (e d : Nat) (i : Nat) :
    (getNode (mergeAt a e d) i).dependencies = (getNode a i).dependencies := by
  by_cases h : e = i
  · subst h
    by_cases he : e < a.length
    · simp [mergeAt, getNode_setNode_self _ he]
    · simp [mergeAt, setNode, getNode,
        List.set_eq_of_length_le (Nat.le_of_not_lt he)]
  · simp [mergeAt, getNode_setNode_ne _ h]

theorem getNode_mergeAt_ne (a : List Node) {e : Nat} (d : Nat) {i : Nat} (h : e ≠ i) :
    getNode (mergeAt a e d) i = getNode a i := getNode_setNode_ne _ h

theorem ra_mergeAt_mono (a : List Node) (e d : Nat) (i : Nat) :
    ∀ s ∈ (getNode a i).referred_as, s ∈ (getNode (mergeAt a e d) i).referred_as := by
  intro s hs
  by_cases h : e = i
  · subst h
    by_cases he : e < a.length
    · simp only [mergeAt, getNode_setNode_self _ he]
      exact mem_mergeRefs_left hs
    · simpa [mergeAt, setNode, List.set_eq_of_length_le (Nat.le_of_not_lt he)] using hs
  · simpa [mergeAt, getNode_setNode_ne _ h] using hs

theorem ra_mergeAt_self (a : List Node) {e : Nat} (d : Nat) (he : e < a.length) :
    ∀ s ∈ (getNode a d).referred_as, s ∈ (getNode (mergeAt a e d) e).referred_as := by
  intro s hs
  simp only [mergeAt, getNode_setNode_self _ he]
  exact mem_mergeRefs_right hs

theorem ra_mergeAt_nodup (a : List Node) (e d : Nat)
    (h : ∀ i, ((getNode a i).referred_as).Nodup) :
    ∀ i, ((getNode (mergeAt a e d) i).referred_as).Nodup := by
  intro i
  by_cases hei : e = i
  · subst hei
    by_cases he : e < a.length
    · simp only [mergeAt, getNode_setNode_self _ he]
      exact mergeRefs_nodup (h e) (h d)
    · simpa [mergeAt, setNode, List.set_eq_of_length_le (Nat.le_of_not_lt he)] using h e
  · simpa [mergeAt, getNode_setNode_ne _ hei] using h i

theorem length_rewireAt (a : List Node) (itemId : Nat) (q : String) (e : Nat) :
    (rewireAt a itemId q e).length = a.length := by
  rw [rewireAt]
  cases indexOfPath a q (getNode a itemId).dependencies with
  | none => rfl
  | some k => exact length_setNode ..

theorem pathAt_rewireAt (a : List Node) (itemId : Nat) (q : String) (e : Nat) (i : Nat) :
    pathAt (rewireAt a itemId q e) i = pathAt a i := by
  rw [rewireAt]
  cases indexOfPath a q (getNode a itemId).dependencies with
  | none => rfl
  | some k =>
    by_cases h : itemId = i
    · subst h
      by_cases hit : itemId < a.length
      · simp [pathAt, getNode_setNode_self _ hit]
      · simp [setNode, pathAt, getNode,
          List.set_eq_of_length_le (Nat.le_of_not_lt hit)]
    · simp [pathAt, getNode_setNode_ne _ h]

theorem getNode_rewireAt_ne (a : List Node) {itemId : Nat} (q : String) (e : Nat)
    {i : Nat} (h : itemId ≠ i) : getNode (rewireAt a itemId q e) i = getNode a i := by
  rw [rewireAt]
  cases indexOfPath a q (getNode a itemId).dependencies with
  | none => rfl
  | some k => exact getNode_setNode_ne _ h

theorem ra_rewireAt (a : List Node) (itemId : Nat) (q : String) (e : Nat) (i : Nat) :
    (getNode (rewireAt a itemId q e) i).referred_as = (getNode a i).referred_as := by
  rw [rewireAt]
  cases indexOfPath a q (getNode a itemId).dependencies with
  | none => rfl
  | some k =>
    by_cases h : itemId = i
    · subst h
      by_cases hit : itemId < a.length
      · simp [getNode_setNode_self _ hit]
      · simp [setNode, getNode, List.set_eq_of_length_le (Nat.le_of_not_lt hit)]
    · simp [getNode_setNode_ne _ h]

theorem deps_rewireAt_of_idx {a : List Node} {itemId : Nat} {q : String} {e k : Nat}
    (hidx : indexOfPath a q (getNode a itemId).dependencies = some k)
    (hit : itemId < a.length) :
    (getNode (rewireAt a itemId q e) itemId).dependencies =
      (getNode a itemId).dependencies.set k e := by
  rw [rewireAt, hidx]
  simp [getNode_setNode_self _ hit]

theorem pathsAt_stable {a a' : List Node} (h : ∀ i, pathAt a' i = pathAt a i)
    (l : List Nat) : pathsAt a' l = pathsAt a l := pathsAt_congr (fun i _ => h i)

theorem pathsAt_getD (a : List Node) :
    ∀ (l : List Nat) (k : Nat), k < l.length →
      (pathsAt a l).getD k "" = pathAt a (l.getD k 0) := by
  intro l
  induction l with
  | nil => intro k h; simp at h
  | cons x xs ih =>
    intro k h
    cases k with
    | zero => simp [pathsAt, List.getD]
    | succ k' =>
      simpa [pathsAt, List.getD] using ih k' (Nat.lt_of_succ_lt_succ h)

theorem item_paths_rewireAt {a : List Node} {itemId : Nat} {q : String} {e : Nat}
    (he : pathAt a e = q) :
    pathsAt (rewireAt a itemId q e) (getNode (rewireAt a itemId q e) itemId).dependencies
      = pathsAt a (getNode a itemId).dependencies := by
  rw [pathsAt_stable (pathAt_rewireAt a itemId q e)]
  by_cases hit : itemId < a.length
  · cases hidx : indexOfPath a q (getNode a itemId).dependencies with
    | none => rw [rewireAt, hidx]
    | some k =>
      rw [deps_rewireAt_of_idx hidx hit, pathsAt_set, he]
      obtain ⟨hk, hpath⟩ := indexOfPath_some hidx
      refine list_set_of_getD_eq _ k q "" ?_ (by simpa [pathsAt] using hk)
      rw [pathsAt_getD a _ k hk, hpath]
  · rw [rewireAt]
    cases hidx : indexOfPath a q (getNode a itemId).dependencies with
    | none => rfl
    | some k =>
      simp [setNode, getNode, List.set_eq_of_length_le (Nat.le_of_not_lt hit)]

/-! ## Case equations for `processDep` -/

theorem processDep_sys {w : World} {R : List Nat} {itemId : Nat} {a : List Node}
    {t : List Nat} {depId : Nat} (h : w.sys (getNode a depId).path = true) :
    processDep w R itemId (a, t) depId = (a, t) := by
  simp [processDep, h]

theorem processDep_found {w : World} {R : List Nat} {itemId : Nat} {a : List Node}
    {t : List Nat} {depId e : Nat} (h : w.sys (getNode a depId).path = false)
    (hf : (findSame a (getNode a depId).path R).orElse
        (fun _ => findSame a (getNode a depId).path t) = some e) :
    processDep w R itemId (a, t) depId =
      (rewireAt (mergeAt a e depId) itemId (getNode a depId).path e, t) := by
  simp [processDep, h, hf]

theorem processDep_new {w : World} {R : List Nat} {itemId : Nat} {a : List Node}
    {t : List Nat} {depId : Nat} (h : w.sys (getNode a depId).path = false)
    (hf : (findSame a (getNode a depId).path R).orElse
        (fun _ => findSame a (getNode a depId).path t) = none) :
    processDep w R itemId (a, t) depId = (a, t ++ [depId]) := by
  simp [processDep, h, hf]

theorem findSame_orElse_some {a : List Node} {q : String} {R t : List Nat} {e : Nat}
    (h : (findSame a q R).orElse (fun _ => findSame a q t) = some e) :
    (e ∈ R ∨ e ∈ t) ∧ pathAt a e = q := by
  cases hR : findSame a q R with
  | some e' =>
    rw [hR] at h
    have h' : e' = e := by
      have : some e' = some e := h
      exact Option.some.inj this
    subst h'
    obtain ⟨h1, h2⟩ := findSame_some hR
    exact ⟨Or.inl h1, h2⟩
  | none =>
    rw [hR] at h
    have h' : findSame a q t = some e := h
    obtain ⟨h1, h2⟩ := findSame_some h'
    exact ⟨Or.inr h1, h2⟩

theorem findSame_orElse_none {a : List Node} {q : String} {R t : List Nat}
    (h : (findSame a q R).orElse (fun _ => findSame a q t) = none) :
    q ∉ pathsAt a R ∧ q ∉ pathsAt a t := by
  cases hR : findSame a q R with
  | some e' =>
    rw [hR] at h
    exact absurd (h : some e' = none) (by simp)
  | none =>
    rw [hR] at h
    exact ⟨findSame_eq_none.mp hR, findSame_eq_none.mp (h : findSame a q t = none)⟩

/-! ## Freshness of the nodes created by `gatherFind` -/

/-- The queued fresh nodes `ds` line up with the inspected references `rcs`:
each holds exactly the reference string and canonical path of its reference,
and lives in the freshly appended part of the arena (at or above `B`). -/
def FreshAt (B : Nat) (a : List Node) (ds : List Nat)
    (rcs : List (String × String)) : Prop :=
  List.Forall₂ (fun d rc => getNode a d = ⟨rc.2, [rc.1], []⟩ ∧ B ≤ d ∧ d < a.length)
    ds rcs

theorem FreshAt.paths {B : Nat} {a : List Node} {ds : List Nat}
    {rcs : List (String × String)} (h : FreshAt B a ds rcs) :
    pathsAt a ds = rcs.map Prod.snd := by
  induction h with
  | nil => rfl
  | @cons d rc ds' rcs' h1 _ ih =>
    simp only [pathsAt, List.map_cons] at ih ⊢
    exact by rw [pathAt, h1.1, ih]

theorem FreshAt.bounds {B : Nat} {a : List Node} {ds : List Nat}
    {rcs : List (String × String)} (h : FreshAt B a ds rcs) :
    ∀ d ∈ ds, B ≤ d ∧ d < a.length := by
  induction h with
  | nil => intro d hd; simp at hd
  | @cons d rc ds' rcs' h1 _ ih =>
    intro d' hd'
    rcases List.mem_cons.mp hd' with rfl | hmem
    · exact h1.2
    · exact ih d' hmem

theorem FreshAt_transfer {B : Nat} {a a' : List Node} {ds : List Nat}
    {rcs : List (String × String)} (h : FreshAt B a ds rcs)
    (hlen : a.length ≤ a'.length) (hnode : ∀ d ∈ ds, getNode a' d = getNode a d) :
    FreshAt B a' ds rcs := by
  induction h with
  | nil => exact List.Forall₂.nil
  | @cons d rc ds' rcs' h1 _ ih =>
    refine List.Forall₂.cons ?_ (ih (fun d' hd' => hnode d' (List.mem_cons_of_mem _ hd')))
    refine ⟨?_, h1.2.1, Nat.lt_of_lt_of_le h1.2.2 hlen⟩
    rw [hnode d (List.mem_cons_self _ _), h1.1]

theorem FreshAt_weaken {B B' : Nat} {a : List Node} {ds : List Nat}
    {rcs : List (String × String)} (hB : B' ≤ B) (h : FreshAt B a ds rcs) :
    FreshAt B' a ds rcs :=
  List.Forall₂.imp (fun _ _ h1 => ⟨h1.1, Nat.le_trans hB h1.2.1, h1.2.2⟩) h

/-! ## The inner-loop invariant -/

/-- All facts established by running `processDeps` on one item's freshly
discovered dependencies `ds` (lined up with the inspected references `rcs`):
frame conditions on the arena, growth of `to_resolve`, preservation of the
wave invariants, registration of every reference, and — when no binary lists
the same canonical path twice — correctness of the rewired edges. -/
structure DepsOut (w : World) (rootPath : String) (R : List Nat) (B : Nat)
    (itemId : Nat) (a : List Node) (t : List Nat) (ds : List Nat)
    (rcs : List (String × String)) (out : List Node × List Nat) : Prop where
  len : out.1.length = a.length
  paths : ∀ i, pathAt out.1 i = pathAt a i
  ra_mono : ∀ i, ∀ s ∈ (getNode a i).referred_as, s ∈ (getNode out.1 i).referred_as
  t_ext : ∃ ext, out.2 = t ++ ext
  t_from : ∀ d ∈ out.2, d ∈ t ∨ d ∈ ds
  untouched : ∀ i, i ≠ itemId → i ∉ R → i ∉ out.2 → getNode out.1 i = getNode a i
  deps_frame : ∀ i, i ≠ itemId →
      (getNode out.1 i).dependencies = (getNode a i).dependencies
  t_bounds : ∀ d ∈ out.2, B ≤ d ∧ d < out.1.length
  t_nodup : out.2.Nodup
  paths_nodup : (pathsAt out.1 (R ++ out.2)).Nodup
  t_sound : ∀ d ∈ out.2, NsReach w rootPath (pathAt out.1 d)
  t_nonsys : ∀ d ∈ out.2, w.sys (pathAt out.1 d) = false
  ra_nodup : (∀ i, ((getNode a i).referred_as).Nodup) →
      ∀ i, ((getNode out.1 i).referred_as).Nodup
  registered : ∀ rc ∈ rcs, w.sys rc.2 = false →
      ∃ j, j ∈ R ++ out.2 ∧ pathAt out.1 j = rc.2 ∧
        rc.1 ∈ (getNode out.1 j).referred_as
  item_paths : pathsAt out.1 (getNode out.1 itemId).dependencies
      = pathsAt a (getNode a itemId).dependencies
  edges_ok : ∀ (pre : List Nat), (getNode a itemId).dependencies = pre ++ ds →
      (pathsAt a (pre ++ ds)).Nodup →
      (∀ e ∈ pre, w.sys (pathAt a e) = false → e ∈ R ++ t) →
      ∀ e ∈ (getNode out.1 itemId).dependencies,
        w.sys (pathAt out.1 e) = false → e ∈ R ++ out.2
  deps_subset : ∀ x ∈ (getNode out.1 itemId).dependencies,
      x ∈ (getNode a itemId).dependencies ∨ x ∈ R ∨ x ∈ out.2

theorem processDeps_spec (w : World) (rootPath : String) (R : List Nat) (B : Nat)
    (itemId : Nat) :
    ∀ (ds : List Nat) (rcs : List (String × String)) (a : List Node) (t : List Nat),
      itemId ∈ R → (∀ i ∈ R, i < B) → B ≤ a.length →
      FreshAt B a ds rcs → ds.Nodup → (∀ d ∈ ds, d ∉ t) →
      (∀ rc ∈ rcs, rc ∈ w.deps (pathAt a itemId)) →
      (∀ d ∈ t, B ≤ d ∧ d < a.length) → t.Nodup →
      (pathsAt a (R ++ t)).Nodup →
      NsReach w rootPath (pathAt a itemId) →
      (∀ d ∈ t, NsReach w rootPath (pathAt a d)) →
      (∀ d ∈ t, w.sys (pathAt a d) = false) →
      DepsOut w rootPath R B itemId a t ds rcs
        (processDeps w R itemId (a, t) ds) := by
  intro ds
  induction ds with
  | nil =>
    intro rcs a t hitR hRB hBa hfresh hdsN hdst hrcs ht htN hpN hsit hts htns
    have hrcs0 : rcs = [] := by
      cases hfresh; rfl
    subst hrcs0
    have hred : processDeps w R itemId (a, t) [] = (a, t) := rfl
    rw [hred]
    refine ⟨rfl, fun i => rfl, fun i s hs => hs, ⟨[], by simp⟩, ?_, ?_, ?_,
      ?_, ?_, ?_, ?_, ?_, ?_, ?_, ?_, ?_, ?_⟩
    · exact fun d hd => Or.inl hd
    · exact fun i _ _ _ => rfl
    · exact fun i _ => rfl
    · exact ht
    · exact htN
    · exact hpN
    · exact hts
    · exact htns
    · exact fun h i => h i
    · intro rc hrc; simp at hrc
    · rfl
    · intro pre heq _ hgood e he hse
      rw [List.append_nil] at heq
      rw [heq] at he
      exact hgood e he hse
    · exact fun x hx => Or.inl hx
  | cons d ds' ih =>
    intro rcs a t hitR hRB hBa hfresh hdsN hdst hrcs ht htN hpN hsit hts htns
    obtain ⟨rc, rcs', hnode3, hfresh', hrcseq⟩ :
        ∃ rc rcs', (getNode a d = ⟨rc.2, [rc.1], []⟩ ∧ B ≤ d ∧ d < a.length) ∧
          FreshAt B a ds' rcs' ∧ rcs = rc :: rcs' := by
      cases hfresh with
      | cons h1 h2 => exact ⟨_, _, h1, h2, rfl⟩
    obtain ⟨hnode, hdB, hdlen⟩ := hnode3
    subst hrcseq
    have hdpath : pathAt a d = rc.2 := by rw [pathAt, hnode]
    have hgnode : (getNode a d).path = rc.2 := by rw [hnode]
    have hdra : (getNode a d).referred_as = [rc.1] := by rw [hnode]
    have hdsN' : ds'.Nodup := (List.nodup_cons.mp hdsN).2
    have hd_not_ds' : d ∉ ds' := (List.nodup_cons.mp hdsN).1
    have hdst' : ∀ x ∈ ds', x ∉ t := fun x hx => hdst x (List.mem_cons_of_mem _ hx)
    have hd_not_t : d ∉ t := hdst d (List.mem_cons_self _ _)
    have hrcs' : ∀ x ∈ rcs', x ∈ w.deps (pathAt a itemId) :=
      fun x hx => hrcs x (List.mem_cons_of_mem _ hx)
    have hrc_mem : rc ∈ w.deps (pathAt a itemId) := hrcs rc (List.mem_cons_self _ _)
    have hstepeq : processDeps w R itemId (a, t) (d :: ds') =
        processDeps w R itemId (processDep w R itemId (a, t) d) ds' := rfl
    rw [hstepeq]
    cases hsys : w.sys rc.2 with
    | true =>
      have hpd : processDep w R itemId (a, t) d = (a, t) :=
        processDep_sys (by rw [hgnode]; exact hsys)
      rw [hpd]
      have O := ih rcs' a t hitR hRB hBa hfresh' hdsN' hdst' hrcs' ht htN hpN hsit hts htns
      refine ⟨O.len, O.paths, O.ra_mono, O.t_ext, ?_, O.untouched, O.deps_frame,
        O.t_bounds, O.t_nodup, O.paths_nodup, O.t_sound, O.t_nonsys, O.ra_nodup,
        ?_, O.item_paths, ?_, O.deps_subset⟩
      · exact fun x hx => (O.t_from x hx).imp id (List.mem_cons_of_mem _)
      · intro rc₀ hrc₀ hs₀
        rcases List.mem_cons.mp hrc₀ with rfl | hmem
        · rw [hs₀] at hsys; exact absurd hsys (by simp)
        · exact O.registered rc₀ hmem hs₀
      · intro pre heq hnodup hgood
        refine O.edges_ok (pre ++ [d]) (by rw [heq]; simp) ?_ ?_
        · have hassoc : (pre ++ [d]) ++ ds' = pre ++ d :: ds' := by simp
          rw [hassoc]; exact hnodup
        · intro x hx hsx
          rcases List.mem_append.mp hx with hmem | hmem
          · exact hgood x hmem hsx
          · have hxd : x = d := by simpa using hmem
            subst hxd
            rw [hdpath, hsys] at hsx
            exact absurd hsx (by simp)
    | false =>
      have hsys_g : w.sys (getNode a d).path = false := by rw [hgnode]; exact hsys
      cases hfind : (findSame a (getNode a d).path R).orElse
          (fun _ => findSame a (getNode a d).path t) with
      | none =>
        have hpd : processDep w R itemId (a, t) d = (a, t ++ [d]) :=
          processDep_new hsys_g hfind
        rw [hpd]
        have hnotin := findSame_orElse_none hfind
        rw [hgnode] at hnotin
        have hnotRT : rc.2 ∉ pathsAt a (R ++ t) := by
          rw [pathsAt, List.map_append]
          intro hmem
          rcases List.mem_append.mp hmem with h1 | h1
          · exact hnotin.1 h1
          · exact hnotin.2 h1
        have ht2 : ∀ x ∈ t ++ [d], B ≤ x ∧ x < a.length := by
          intro x hx
          rcases List.mem_append.mp hx with h1 | h1
          · exact ht x h1
          · have hxd : x = d := by simpa using h1
            subst hxd; exact ⟨hdB, hdlen⟩
        have htN2 : (t ++ [d]).Nodup := by
          rw [List.nodup_append]
          refine ⟨htN, List.nodup_singleton _, ?_⟩
          intro x hx hx2
          have hxd : x = d := by simpa using hx2
          subst hxd; exact hd_not_t hx
        have hpN2 : (pathsAt a (R ++ (t ++ [d]))).Nodup := by
          have hassoc : R ++ (t ++ [d]) = (R ++ t) ++ [d] := by simp
          rw [hassoc]
          have hsplit : pathsAt a ((R ++ t) ++ [d]) = pathsAt a (R ++ t) ++ [rc.2] := by
            simp [pathsAt, hdpath]
          rw [hsplit, List.nodup_append]
          refine ⟨hpN, List.nodup_singleton _, ?_⟩
          intro x hx hx2
          have hxq : x = rc.2 := by simpa using hx2
          subst hxq; exact hnotRT hx
        have hdst2 : ∀ x ∈ ds', x ∉ t ++ [d] := by
          intro x hx hx2
          rcases List.mem_append.mp hx2 with h1 | h1
          · exact hdst' x hx h1
          · have hxd : x = d := by simpa using h1
            subst hxd; exact hd_not_ds' hx
        have hts2 : ∀ x ∈ t ++ [d], NsReach w rootPath (pathAt a x) := by
          intro x hx
          rcases List.mem_append.mp hx with h1 | h1
          · exact hts x h1
          · have hxd : x = d := by simpa using h1
            subst hxd
            rw [hdpath]
            exact NsReach.step rc.1 hsit hrc_mem hsys
        have htns2 : ∀ x ∈ t ++ [d], w.sys (pathAt a x) = false := by
          intro x hx
          rcases List.mem_append.mp hx with h1 | h1
          · exact htns x h1
          · have hxd : x = d := by simpa using h1
            subst hxd; rw [hdpath]; exact hsys
        have O := ih rcs' a (t ++ [d]) hitR hRB hBa hfresh' hdsN' hdst2 hrcs'
          ht2 htN2 hpN2 hsit hts2 htns2
        refine ⟨O.len, O.paths, O.ra_mono, ?_, ?_, O.untouched, O.deps_frame,
          O.t_bounds, O.t_nodup, O.paths_nodup, O.t_sound, O.t_nonsys, O.ra_nodup,
          ?_, O.item_paths, ?_, O.deps_subset⟩
        · obtain ⟨ext, hext⟩ := O.t_ext
          exact ⟨d :: ext, by rw [hext]; simp⟩
        · intro x hx
          rcases O.t_from x hx with h1 | h1
          · rcases List.mem_append.mp h1 with h2 | h2
            · exact Or.inl h2
            · have hxd : x = d := by simpa using h2
              subst hxd; exact Or.inr (List.mem_cons_self _ _)
          · exact Or.inr (List.mem_cons_of_mem _ h1)
        · intro rc₀ hrc₀ hs₀
          rcases List.mem_cons.mp hrc₀ with rfl | hmem
          · refine ⟨d, ?_, ?_, ?_⟩
            · obtain ⟨ext, hext⟩ := O.t_ext
              refine List.mem_append.mpr (Or.inr ?_)
              rw [hext]
              exact List.mem_append.mpr (Or.inl (List.mem_append.mpr (Or.inr (by simp))))
            · rw [O.paths d, hdpath]
            · exact O.ra_mono d rc₀.1 (by rw [hdra]; exact List.mem_cons_self _ _)
          · exact O.registered rc₀ hmem hs₀
        · intro pre heq hnodup hgood
          refine O.edges_ok (pre ++ [d]) (by rw [heq]; simp) ?_ ?_
          · have hassoc : (pre ++ [d]) ++ ds' = pre ++ d :: ds' := by simp
            rw [hassoc]; exact hnodup
          · intro x hx hsx
            rcases List.mem_append.mp hx with hmem | hmem
            · rcases List.mem_append.mp (hgood x hmem hsx) with h2 | h2
              · exact List.mem_append.mpr (Or.inl h2)
              · exact List.mem_append.mpr (Or.inr (List.mem_append.mpr (Or.inl h2)))
            · have hxd : x = d := by simpa using hmem
              subst hxd
              exact List.mem_append.mpr (Or.inr (List.mem_append.mpr (Or.inr (by simp))))
      | some e =>
        have hfs := findSame_orElse_some hfind
        rw [hgnode] at hfs
        obtain ⟨heRt, hepath⟩ := hfs
        have helen : e < a.length := by
          rcases heRt with h1 | h1
          · exact Nat.lt_of_lt_of_le (hRB e h1) hBa
          · exact (ht e h1).2
        have hpd : processDep w R itemId (a, t) d =
            (rewireAt (mergeAt a e d) itemId rc.2 e, t) := by
          rw [processDep_found hsys_g hfind, hgnode]
        rw [hpd]
        have hlen1 : (mergeAt a e d).length = a.length := length_mergeAt a e d
        have hlenw : (rewireAt (mergeAt a e d) itemId rc.2 e).length = a.length := by
          rw [length_rewireAt, hlen1]
        have hpath1 : ∀ i, pathAt (mergeAt a e d) i = pathAt a i := pathAt_mergeAt a e d
        have hpathaw : ∀ i, pathAt (rewireAt (mergeAt a e d) itemId rc.2 e) i = pathAt a i :=
          fun i => (pathAt_rewireAt (mergeAt a e d) itemId rc.2 e i).trans (hpath1 i)
        have hnode_ne : ∀ i, i ≠ itemId → i ≠ e →
            getNode (rewireAt (mergeAt a e d) itemId rc.2 e) i = getNode a i := by
          intro i h1 h2
          rw [getNode_rewireAt_ne (mergeAt a e d) rc.2 e h1.symm]
          exact getNode_mergeAt_ne a d h2.symm
        have hdeps_w : ∀ i, i ≠ itemId →
            (getNode (rewireAt (mergeAt a e d) itemId rc.2 e) i).dependencies =
              (getNode a i).dependencies := by
          intro i h1
          rw [getNode_rewireAt_ne (mergeAt a e d) rc.2 e h1.symm]
          exact deps_mergeAt a e d i
        have hra_w : ∀ i, ∀ s ∈ (getNode a i).referred_as,
            s ∈ (getNode (rewireAt (mergeAt a e d) itemId rc.2 e) i).referred_as := by
          intro i s hs
          rw [ra_rewireAt]
          exact ra_mergeAt_mono a e d i s hs
        have hra_e : rc.1 ∈ (getNode (rewireAt (mergeAt a e d) itemId rc.2 e) e).referred_as := by
          rw [ra_rewireAt]
          exact ra_mergeAt_self a d helen rc.1 (by rw [hdra]; exact List.mem_cons_self _ _)
        have hBaw : B ≤ (rewireAt (mergeAt a e d) itemId rc.2 e).length := by
          rw [hlenw]; exact hBa
        have hfresh_w : FreshAt B (rewireAt (mergeAt a e d) itemId rc.2 e) ds' rcs' := by
          refine FreshAt_transfer hfresh' (le_of_eq hlenw.symm) ?_
          intro d' hd'
          have hd'b := hfresh'.bounds d' hd'
          refine hnode_ne d' ?_ ?_
          · intro hh
            exact (Nat.not_le_of_lt (hRB itemId hitR)) (hh ▸ hd'b.1)
          · intro hh
            rcases heRt with h1 | h1
            · exact (Nat.not_le_of_lt (hRB e h1)) (hh ▸ hd'b.1)
            · exact hdst' d' hd' (hh ▸ h1)
        have hrcs_w : ∀ x ∈ rcs',
            x ∈ w.deps (pathAt (rewireAt (mergeAt a e d) itemId rc.2 e) itemId) := by
          intro x hx; rw [hpathaw]; exact hrcs' x hx
        have ht_w : ∀ x ∈ t, B ≤ x ∧ x < (rewireAt (mergeAt a e d) itemId rc.2 e).length := by
          intro x hx; rw [hlenw]; exact ht x hx
        have hpN_w : (pathsAt (rewireAt (mergeAt a e d) itemId rc.2 e) (R ++ t)).Nodup := by
          rw [pathsAt_stable hpathaw]; exact hpN
        have hsit_w : NsReach w rootPath (pathAt (rewireAt (mergeAt a e d) itemId rc.2 e) itemId) := by
          rw [hpathaw]; exact hsit
        have hts_w : ∀ x ∈ t, NsReach w rootPath (pathAt (rewireAt (mergeAt a e d) itemId rc.2 e) x) := by
          intro x hx; rw [hpathaw]; exact hts x hx
        have htns_w : ∀ x ∈ t, w.sys (pathAt (rewireAt (mergeAt a e d) itemId rc.2 e) x) = false := by
          intro x hx; rw [hpathaw]; exact htns x hx
        have O := ih rcs' (rewireAt (mergeAt a e d) itemId rc.2 e) t hitR hRB hBaw
          hfresh_w hdsN' hdst' hrcs_w ht_w htN hpN_w hsit_w hts_w htns_w
        refine ⟨O.len.trans hlenw, fun i => (O.paths i).trans (hpathaw i),
          fun i s hs => O.ra_mono i s (hra_w i s hs), O.t_ext, ?_, ?_, ?_,
          O.t_bounds, O.t_nodup, O.paths_nodup, O.t_sound, O.t_nonsys, ?_, ?_, ?_, ?_, ?_⟩
        · exact fun x hx => (O.t_from x hx).imp id (List.mem_cons_of_mem _)
        · intro i h1 hiR hi2
          have hit : i ∉ t := by
            intro hmem
            obtain ⟨ext, hext⟩ := O.t_ext
            exact hi2 (hext ▸ List.mem_append.mpr (Or.inl hmem))
          have hine : i ≠ e := by
            intro hh
            rcases heRt with h2 | h2
            · exact hiR (hh ▸ h2)
            · exact hit (hh ▸ h2)
          rw [O.untouched i h1 hiR hi2]
          exact hnode_ne i h1 hine
        · exact fun i h1 => (O.deps_frame i h1).trans (hdeps_w i h1)
        · intro hall
          refine O.ra_nodup ?_
          intro i
          rw [ra_rewireAt]
          exact ra_mergeAt_nodup a e d hall i
        · intro rc₀ hrc₀ hs₀
          rcases List.mem_cons.mp hrc₀ with rfl | hmem
          · refine ⟨e, ?_, ?_, ?_⟩
            · rcases heRt with h1 | h1
              · exact List.mem_append.mpr (Or.inl h1)
              · obtain ⟨ext, hext⟩ := O.t_ext
                exact List.mem_append.mpr (Or.inr (hext ▸ List.mem_append.mpr (Or.inl h1)))
            · rw [O.paths e, hpathaw e]; exact hepath
            · exact O.ra_mono e rc₀.1 hra_e
          · exact O.registered rc₀ hmem hs₀
        · refine O.item_paths.trans ?_
          have h1 := @item_paths_rewireAt (mergeAt a e d) itemId rc.2 e
            (by rw [hpath1]; exact hepath)
          rw [h1, pathsAt_stable hpath1, deps_mergeAt]
        · intro pre heq hnodup hgood
          have hdeps1 : (getNode (mergeAt a e d) itemId).dependencies = pre ++ d :: ds' := by
            rw [deps_mergeAt]; exact heq
          have hq_pre : ∀ y ∈ pre, pathAt (mergeAt a e d) y ≠ rc.2 := by
            intro y hy hcontra
            rw [hpath1] at hcontra
            have h1 : rc.2 ∈ pathsAt a pre := mem_pathsAt.mpr ⟨y, hy, hcontra⟩
            have hsplitp : pathsAt a (pre ++ d :: ds') =
                pathsAt a pre ++ pathAt a d :: pathsAt a ds' := by
              simp [pathsAt]
            rw [hsplitp, List.nodup_append] at hnodup
            exact hnodup.2.2 h1 (by rw [hdpath]; exact List.mem_cons_self _ _)
          have hidx : indexOfPath (mergeAt a e d) rc.2
              (getNode (mergeAt a e d) itemId).dependencies = some pre.length := by
            rw [hdeps1]
            exact indexOfPath_first pre d ds' (by rw [hpath1]; exact hdpath) hq_pre
          have hit_len : itemId < (mergeAt a e d).length := by
            rw [hlen1]; exact Nat.lt_of_lt_of_le (hRB itemId hitR) hBa
          have hdeps_aw : (getNode (rewireAt (mergeAt a e d) itemId rc.2 e) itemId).dependencies
              = (pre ++ [e]) ++ ds' := by
            rw [deps_rewireAt_of_idx hidx hit_len, hdeps1, set_append_cons_self]
            simp
          refine O.edges_ok (pre ++ [e]) hdeps_aw ?_ ?_
          · rw [pathsAt_stable hpathaw]
            have hlist : pathsAt a ((pre ++ [e]) ++ ds') = pathsAt a (pre ++ d :: ds') := by
              simp [pathsAt, hepath, hdpath]
            rw [hlist]; exact hnodup
          · intro x hx hsx
            rcases List.mem_append.mp hx with hmem | hmem
            · rw [hpathaw x] at hsx
              exact hgood x hmem hsx
            · have hxe : x = e := by simpa using hmem
              subst hxe
              rcases heRt with h1 | h1
              · exact List.mem_append.mpr (Or.inl h1)
              · exact List.mem_append.mpr (Or.inr h1)
        · -- deps_subset
          have hsub_aw : ∀ x ∈ (getNode (rewireAt (mergeAt a e d) itemId rc.2 e)
              itemId).dependencies, x ∈ (getNode a itemId).dependencies ∨ x = e := by
            intro x hx
            have hit : itemId < (mergeAt a e d).length := by
              rw [length_mergeAt]
              exact Nat.lt_of_lt_of_le (hRB itemId hitR) hBa
            cases hidx : indexOfPath (mergeAt a e d) rc.2
                (getNode (mergeAt a e d) itemId).dependencies with
            | none =>
              rw [rewireAt, hidx] at hx
              rw [deps_mergeAt] at hx
              exact Or.inl hx
            | some k =>
              rw [deps_rewireAt_of_idx hidx hit] at hx
              rcases mem_of_set _ k hx with h1 | h1
              · rw [deps_mergeAt] at h1
                exact Or.inl h1
              · exact Or.inr h1
          intro x hx
          rcases O.deps_subset x hx with h1 | h1
          · rcases hsub_aw x h1 with h2 | h2
            · exact Or.inl h2
            · subst h2
              rcases heRt with h3 | h3
              · exact Or.inr (Or.inl h3)
              · obtain ⟨ext, hext⟩ := O.t_ext
                exact Or.inr (Or.inr (hext ▸ List.mem_append.mpr (Or.inl h3)))
          · exact Or.inr h1

/-! ## The wave invariant: all items of one frontier -/

/-- All facts established by the `for item, item_deps in zip(...)` loop over
one whole frontier. -/
structure ItemsOut (w : World) (rootPath : String) (R : List Nat) (B : Nat)
    (a : List Node) (t : List Nat) (pairs : List (Nat × List Nat))
    (out : List Node × List Nat) : Prop where
  len : out.1.length = a.length
  paths : ∀ i, pathAt out.1 i = pathAt a i
  ra_mono : ∀ i, ∀ s ∈ (getNode a i).referred_as, s ∈ (getNode out.1 i).referred_as
  t_ext : ∃ ext, out.2 = t ++ ext
  t_from : ∀ x ∈ out.2, x ∈ t ∨ x ∈ (pairs.map Prod.snd).flatten
  untouched : ∀ i, i ∉ pairs.map Prod.fst → i ∉ R → i ∉ out.2 →
      getNode out.1 i = getNode a i
  deps_frame : ∀ i, i ∉ pairs.map Prod.fst →
      (getNode out.1 i).dependencies = (getNode a i).dependencies
  t_bounds : ∀ x ∈ out.2, B ≤ x ∧ x < out.1.length
  t_nodup : out.2.Nodup
  paths_nodup : (pathsAt out.1 (R ++ out.2)).Nodup
  t_sound : ∀ x ∈ out.2, NsReach w rootPath (pathAt out.1 x)
  t_nonsys : ∀ x ∈ out.2, w.sys (pathAt out.1 x) = false
  ra_nodup : (∀ i, ((getNode a i).referred_as).Nodup) →
      ∀ i, ((getNode out.1 i).referred_as).Nodup
  registered : ∀ pr ∈ pairs, ∀ rc ∈ w.deps (pathAt a pr.1), w.sys rc.2 = false →
      ∃ j, j ∈ R ++ out.2 ∧ pathAt out.1 j = rc.2 ∧
        rc.1 ∈ (getNode out.1 j).referred_as
  edges_all : (∀ p, ((w.deps p).map Prod.snd).Nodup) → ∀ pr ∈ pairs,
      ∀ x ∈ (getNode out.1 pr.1).dependencies, w.sys (pathAt out.1 x) = false →
        x ∈ R ++ out.2
  deps_subset : ∀ pr ∈ pairs, ∀ x ∈ (getNode out.1 pr.1).dependencies,
      x ∈ (getNode a pr.1).dependencies ∨ x ∈ R ∨ x ∈ out.2

theorem processItems_spec (w : World) (rootPath : String) (R : List Nat) (B : Nat) :
    ∀ (pairs : List (Nat × List Nat)) (a : List Node) (t : List Nat),
      (∀ i ∈ R, i < B) → B ≤ a.length →
      (∀ pr ∈ pairs, pr.1 ∈ R) →
      (pairs.map Prod.fst).Nodup →
      ((pairs.map Prod.snd).flatten).Nodup →
      (∀ x ∈ (pairs.map Prod.snd).flatten, x ∉ t) →
      (∀ pr ∈ pairs, (getNode a pr.1).dependencies = pr.2 ∧ pr.2.Nodup ∧
          FreshAt B a pr.2 (w.deps (pathAt a pr.1))) →
      (∀ i ∈ R, NsReach w rootPath (pathAt a i)) →
      (∀ x ∈ t, B ≤ x ∧ x < a.length) → t.Nodup →
      (pathsAt a (R ++ t)).Nodup →
      (∀ x ∈ t, NsReach w rootPath (pathAt a x)) →
      (∀ x ∈ t, w.sys (pathAt a x) = false) →
      ItemsOut w rootPath R B a t pairs (processItems w R (a, t) pairs) := by
  intro pairs
  induction pairs with
  | nil =>
    intro a t hRB hBa hprR hfstN hflatN hflat_t hdata hRsound ht htN hpN hts htns
    have hred : processItems w R (a, t) [] = (a, t) := rfl
    rw [hred]
    refine ⟨rfl, fun i => rfl, fun i s hs => hs, ⟨[], by simp⟩, ?_, ?_, ?_, ht, htN,
      hpN, hts, htns, fun h => h, ?_, ?_, ?_⟩
    · exact fun x hx => Or.inl hx
    · exact fun i _ _ _ => rfl
    · exact fun i _ => rfl
    · intro pr hpr; simp at hpr
    · intro _ pr hpr; simp at hpr
    · intro pr hpr; simp at hpr
  | cons pr0 rest ih =>
    intro a t hRB hBa hprR hfstN hflatN hflat_t hdata hRsound ht htN hpN hts htns
    obtain ⟨it, ds⟩ := pr0
    obtain ⟨hdeps0, hdsN0, hfresh0⟩ := hdata (it, ds) (List.mem_cons_self _ _)
    have hitR : it ∈ R := hprR (it, ds) (List.mem_cons_self _ _)
    have hflat_cons : ((((it, ds) :: rest).map Prod.snd).flatten) =
        ds ++ (rest.map Prod.snd).flatten := by simp
    have hds_rest_disj : ∀ x ∈ ds, x ∉ (rest.map Prod.snd).flatten := by
      rw [hflat_cons, List.nodup_append] at hflatN
      exact fun x hx => hflatN.2.2 hx
    have hdsN_flat : ds.Nodup ∧ ((rest.map Prod.snd).flatten).Nodup := by
      rw [hflat_cons, List.nodup_append] at hflatN
      exact ⟨hflatN.1, hflatN.2.1⟩
    have hdst0 : ∀ x ∈ ds, x ∉ t := by
      intro x hx
      exact hflat_t x (by rw [hflat_cons]; exact List.mem_append.mpr (Or.inl hx))
    have hsit0 : NsReach w rootPath (pathAt a it) := hRsound it hitR
    have D := processDeps_spec w rootPath R B it ds (w.deps (pathAt a it)) a t
      hitR hRB hBa hfresh0 hdsN0 hdst0 (fun rc hrc => hrc) ht htN hpN hsit0 hts htns
    have hred : processItems w R (a, t) ((it, ds) :: rest) =
        processItems w R (processDeps w R it (a, t) ds) rest := rfl
    rw [hred]
    rcases hmid : processDeps w R it (a, t) ds with ⟨a1, t1⟩
    rw [hmid] at D
    -- repackage D's fields at the intermediate state (a1, t1)
    have Dlen : a1.length = a.length := D.len
    have Dpaths : ∀ i, pathAt a1 i = pathAt a i := D.paths
    have Dra : ∀ i, ∀ s ∈ (getNode a i).referred_as, s ∈ (getNode a1 i).referred_as :=
      D.ra_mono
    have Dtext : ∃ ext, t1 = t ++ ext := D.t_ext
    have Dtfrom : ∀ x ∈ t1, x ∈ t ∨ x ∈ ds := D.t_from
    have Duntouched : ∀ i, i ≠ it → i ∉ R → i ∉ t1 → getNode a1 i = getNode a i :=
      D.untouched
    have Ddeps : ∀ i, i ≠ it → (getNode a1 i).dependencies = (getNode a i).dependencies :=
      D.deps_frame
    -- hypotheses for the tail run
    have hBa1 : B ≤ a1.length := Dlen ▸ hBa
    have hprR1 : ∀ pr ∈ rest, pr.1 ∈ R := fun pr hpr => hprR pr (List.mem_cons_of_mem _ hpr)
    have hfstN1 : (rest.map Prod.fst).Nodup := by
      simp only [List.map_cons, List.nodup_cons] at hfstN
      exact hfstN.2
    have hit_not_rest : it ∉ rest.map Prod.fst := by
      simp only [List.map_cons, List.nodup_cons] at hfstN
      exact hfstN.1
    have hflat_t1 : ∀ x ∈ (rest.map Prod.snd).flatten, x ∉ t1 := by
      intro x hx hx1
      rcases Dtfrom x hx1 with h1 | h1
      · exact hflat_t x (by rw [hflat_cons]; exact List.mem_append.mpr (Or.inr hx)) h1
      · exact hds_rest_disj x h1 hx
    have hdata1 : ∀ pr ∈ rest, (getNode a1 pr.1).dependencies = pr.2 ∧ pr.2.Nodup ∧
        FreshAt B a1 pr.2 (w.deps (pathAt a1 pr.1)) := by
      intro pr hpr
      obtain ⟨h1, h2, h3⟩ := hdata pr (List.mem_cons_of_mem _ hpr)
      have hne : pr.1 ≠ it := by
        intro hh
        exact hit_not_rest (hh ▸ List.mem_map.mpr ⟨pr, hpr, rfl⟩)
      refine ⟨(Ddeps pr.1 hne).trans h1, h2, ?_⟩
      rw [Dpaths pr.1]
      refine FreshAt_transfer h3 (le_of_eq Dlen.symm) ?_
      intro x hx
      have hxb := h3.bounds x hx
      have hx_flat : x ∈ (rest.map Prod.snd).flatten := by
        rw [List.mem_flatten]
        exact ⟨pr.2, List.mem_map.mpr ⟨pr, hpr, rfl⟩, hx⟩
      refine Duntouched x ?_ ?_ ?_
      · intro hh
        exact (Nat.not_le_of_lt (hRB it hitR)) (hh ▸ hxb.1)
      · intro hh
        exact (Nat.not_le_of_lt (hRB x hh)) hxb.1
      · exact hflat_t1 x hx_flat
    have hRsound1 : ∀ i ∈ R, NsReach w rootPath (pathAt a1 i) := by
      intro i hi; rw [Dpaths i]; exact hRsound i hi
    have I := ih a1 t1 hRB hBa1 hprR1 hfstN1 hdsN_flat.2 hflat_t1 hdata1 hRsound1
      D.t_bounds D.t_nodup D.paths_nodup D.t_sound D.t_nonsys
    -- assemble the combined ItemsOut
    have hmid_sub : ∀ x ∈ t1, x ∈ (processItems w R (a1, t1) rest).2 := by
      obtain ⟨ext, hext⟩ := I.t_ext
      intro x hx
      rw [hext]
      exact List.mem_append.mpr (Or.inl hx)
    refine ⟨I.len.trans Dlen, fun i => (I.paths i).trans (Dpaths i),
      fun i s hs => I.ra_mono i s (Dra i s hs), ?_, ?_, ?_, ?_, I.t_bounds, I.t_nodup,
      I.paths_nodup, I.t_sound, I.t_nonsys, ?_, ?_, ?_, ?_⟩
    · obtain ⟨e1, he1⟩ := Dtext
      obtain ⟨e2, he2⟩ := I.t_ext
      exact ⟨e1 ++ e2, by rw [he2, he1]; simp⟩
    · intro x hx
      rcases I.t_from x hx with h1 | h1
      · rcases Dtfrom x h1 with h2 | h2
        · exact Or.inl h2
        · refine Or.inr ?_
          rw [hflat_cons]
          exact List.mem_append.mpr (Or.inl h2)
      · refine Or.inr ?_
        rw [hflat_cons]
        exact List.mem_append.mpr (Or.inr h1)
    · intro i hi hiR hiout
      have hi_ne : i ≠ it := by
        intro hh
        subst hh
        exact hi (by simp)
      have hi_rest : i ∉ rest.map Prod.fst := by
        intro hh
        exact hi (by simpa using Or.inr hh)
      have hi_t1 : i ∉ t1 := fun hh => hiout (hmid_sub i hh)
      exact (I.untouched i hi_rest hiR hiout).trans (Duntouched i hi_ne hiR hi_t1)
    · intro i hi
      have hi_ne : i ≠ it := by
        intro hh
        subst hh
        exact hi (by simp)
      have hi_rest : i ∉ rest.map Prod.fst := by
        intro hh
        exact hi (by simpa using Or.inr hh)
      exact (I.deps_frame i hi_rest).trans (Ddeps i hi_ne)
    · intro hall
      exact I.ra_nodup (D.ra_nodup hall)
    · intro pr hpr rc hrc hsrc
      rcases List.mem_cons.mp hpr with rfl | hmem
      · obtain ⟨j, hj1, hj2, hj3⟩ := D.registered rc hrc hsrc
        refine ⟨j, ?_, (I.paths j).trans hj2, I.ra_mono j rc.1 hj3⟩
        rcases List.mem_append.mp hj1 with h1 | h1
        · exact List.mem_append.mpr (Or.inl h1)
        · exact List.mem_append.mpr (Or.inr (hmid_sub j h1))
      · have hpath_eq : w.deps (pathAt a1 pr.1) = w.deps (pathAt a pr.1) := by
          rw [Dpaths]
        exact I.registered pr hmem rc (by rw [hpath_eq]; exact hrc) hsrc
    · intro H pr hpr x hx hsx
      rcases List.mem_cons.mp hpr with rfl | hmem
      · -- the head item: its edges were fixed up by `D`
        have hfront : ∀ y ∈ (getNode a1 it).dependencies,
            w.sys (pathAt a1 y) = false → y ∈ R ++ t1 := by
          refine D.edges_ok [] (by simpa using hdeps0) ?_ ?_
          · rw [List.nil_append, hfresh0.paths]
            exact H (pathAt a it)
          · intro y hy; simp at hy
        have hit_rest : it ∉ rest.map Prod.fst := hit_not_rest
        have hdeps_out : (getNode (processItems w R (a1, t1) rest).1 it).dependencies =
            (getNode a1 it).dependencies := I.deps_frame it hit_rest
        rw [hdeps_out] at hx
        rw [I.paths x] at hsx
        rcases List.mem_append.mp (hfront x hx hsx) with h1 | h1
        · exact List.mem_append.mpr (Or.inl h1)
        · exact List.mem_append.mpr (Or.inr (hmid_sub x h1))
      · exact I.edges_all H pr hmem x hx hsx
    · -- deps_subset
      intro pr hpr x hx
      rcases List.mem_cons.mp hpr with rfl | hmem
      · have hdeps_out : (getNode (processItems w R (a1, t1) rest).1 it).dependencies =
            (getNode a1 it).dependencies := I.deps_frame it hit_not_rest
        rw [hdeps_out] at hx
        rcases D.deps_subset x hx with h1 | h1
        · exact Or.inl h1
        · rcases h1 with h2 | h2
          · exact Or.inr (Or.inl h2)
          · exact Or.inr (Or.inr (hmid_sub x h2))
      · have hne : pr.1 ≠ it := by
          intro hh
          exact hit_not_rest (hh ▸ List.mem_map.mpr ⟨pr, hmem, rfl⟩)
        rcases I.deps_subset pr hmem x hx with h1 | h1
        · rw [Ddeps pr.1 hne] at h1
          exact Or.inl h1
        · exact Or.inr h1

/-! ## Specification of `gatherFind` -/

theorem getD_irrel {α : Type _} :
    ∀ (l : List α) (k : Nat) (d₁ d₂ : α), k < l.length → l.getD k d₁ = l.getD k d₂ := by
  intro l
  induction l with
  | nil => intro k d₁ d₂ h; simp at h
  | cons x xs ih =>
    intro k d₁ d₂ h
    cases k with
    | zero => rfl
    | succ k' => exact ih k' d₁ d₂ (Nat.lt_of_succ_lt_succ h)

theorem getD_map_pair :
    ∀ (rcs : List (String × String)) (k : Nat) (f : String × String → Node)
      (dflt : String × String),
      (rcs.map f).getD k (f dflt) = f (rcs.getD k dflt) := by
  intro rcs
  induction rcs with
  | nil => intro k f dflt; cases k <;> rfl
  | cons rc rest ih =>
    intro k f dflt
    cases k with
    | zero => rfl
    | succ k' => exact ih k' f dflt

/-- Building block for `gatherFind`: the block of fresh nodes written at
positions `B, B+1, …` lines up with the inspected references. -/
theorem freshAt_make (a' : List Node) (B0 : Nat) :
    ∀ (rcs : List (String × String)) (B : Nat), B0 ≤ B → B + rcs.length ≤ a'.length →
      (∀ k, k < rcs.length →
        getNode a' (B + k) = ⟨(rcs.getD k ("", "")).2, [(rcs.getD k ("", "")).1], []⟩) →
      FreshAt B0 a' ((List.range rcs.length).map (· + B)) rcs := by
  intro rcs
  induction rcs with
  | nil => intro B _ _ _; exact List.Forall₂.nil
  | cons rc rcs' ih =>
    intro B hB0 hlen hk
    have hrange : (List.range (rc :: rcs').length).map (· + B) =
        B :: (List.range rcs'.length).map (· + (B + 1)) := by
      rw [List.length_cons, List.range_succ_eq_map, List.map_cons, List.map_map]
      congr 1
      · exact Nat.zero_add B
      · refine List.map_congr_left ?_
        intro k _
        simp only [Function.comp]
        omega
    rw [hrange]
    refine List.Forall₂.cons ?_ (ih (B + 1) (Nat.le_succ_of_le hB0) (by simp at hlen; omega) ?_)
    · refine ⟨?_, hB0, ?_⟩
      · have h0 := hk 0 (by simp)
        simpa using h0
      · simp at hlen; omega
    · intro k hk'
      have h1 := hk (k + 1) (by simpa using Nat.succ_lt_succ hk')
      rw [show B + 1 + k = B + (k + 1) by omega]
      simpa [List.getD] using h1

/-- All facts established by `gatherFind` on one frontier: the arena only
grows, pre-existing nodes keep their path and reference strings, only the
inspected items' edge lists change, and the edge lists line up with fresh
nodes for the inspected references. -/
structure GatherOut (w : World) (a : List Node) (items : List Nat)
    (out : List Node × List (List Nat) × List String) : Prop where
  len : a.length ≤ out.1.length
  paths : ∀ i, i < a.length → pathAt out.1 i = pathAt a i
  ra_eq : ∀ i, i < a.length → (getNode out.1 i).referred_as = (getNode a i).referred_as
  untouched : ∀ i, i < a.length → i ∉ items → getNode out.1 i = getNode a i
  data : List.Forall₂ (fun it ds => (getNode out.1 it).dependencies = ds ∧ ds.Nodup ∧
      FreshAt a.length out.1 ds (w.deps (pathAt out.1 it))) items out.2.1
  flat_nodup : (out.2.1.flatten).Nodup
  flat_bounds : ∀ d ∈ out.2.1.flatten, a.length ≤ d ∧ d < out.1.length
  ra_fresh : ∀ i, a.length ≤ i → ((getNode out.1 i).referred_as).Nodup

theorem gatherFind_spec (w : World) :
    ∀ (items : List Nat) (a : List Node),
      (∀ i ∈ items, i < a.length) → items.Nodup →
      GatherOut w a items (gatherFind w a items) := by
  intro items
  induction items with
  | nil =>
    intro a _ _
    have hred0 : gatherFind w a [] = (a, [], []) := rfl
    rw [hred0]
    exact ⟨Nat.le_refl _, fun i _ => rfl, fun i _ => rfl, fun i _ _ => rfl,
      List.Forall₂.nil, List.nodup_nil, fun d hd => by simp at hd,
      fun i hi => by rw [getNode_out hi]; exact List.nodup_nil⟩
  | cons id rest ih =>
    intro a hval hnodup
    have hid : id < a.length := hval id (List.mem_cons_self _ _)
    have hrest_val : ∀ i ∈ rest, i < a.length :=
      fun i hi => hval i (List.mem_cons_of_mem _ hi)
    have hrestN : rest.Nodup := (List.nodup_cons.mp hnodup).2
    have hid_rest : id ∉ rest := (List.nodup_cons.mp hnodup).1
    -- unfold one step of gatherFind
    have hred : gatherFind w a (id :: rest) =
        (let p := pathAt a id
         let fresh := (w.deps p).map (fun rc => Node.mk rc.2 [rc.1] [])
         let ids := (List.range fresh.length).map (· + a.length)
         let a2 := setNode (a ++ fresh) id { getNode a id with dependencies := ids }
         let r := gatherFind w a2 rest
         (r.1, ids :: r.2.1, w.fails p ++ r.2.2)) := rfl
    rw [hred]
    simp only []
    set p := pathAt a id with hp
    set fresh := (w.deps p).map (fun rc => Node.mk rc.2 [rc.1] []) with hfresh
    set ids := (List.range fresh.length).map (· + a.length) with hids
    set a2 := setNode (a ++ fresh) id { getNode a id with dependencies := ids } with ha2
    have ha2len : a2.length = a.length + fresh.length := by
      rw [ha2, length_setNode, List.length_append]
    have haa2 : a.length ≤ a2.length := by rw [ha2len]; exact Nat.le_add_right _ _
    have ha2_ne : ∀ i, i < a.length → i ≠ id → getNode a2 i = getNode a i := by
      intro i hi hne
      rw [ha2, getNode_setNode_ne _ (fun hh => hne hh.symm)]
      exact getNode_append_left hi
    have ha2_id : getNode a2 id = { getNode a id with dependencies := ids } := by
      rw [ha2]
      have : id < (a ++ fresh).length := by
        rw [List.length_append]; exact Nat.lt_of_lt_of_le hid (Nat.le_add_right _ _)
      exact getNode_setNode_self _ this
    have ha2_path : ∀ i, i < a.length → pathAt a2 i = pathAt a i := by
      intro i hi
      by_cases hne : i = id
      · subst hne
        rw [pathAt, ha2_id]
        rfl
      · rw [pathAt, ha2_ne i hi hne]; rfl
    have ha2_ra : ∀ i, i < a.length →
        (getNode a2 i).referred_as = (getNode a i).referred_as := by
      intro i hi
      by_cases hne : i = id
      · subst hne
        rw [ha2_id]
      · rw [ha2_ne i hi hne]
    have hids_bounds : ∀ d ∈ ids, a.length ≤ d ∧ d < a2.length := by
      intro d hd
      rw [hids] at hd
      obtain ⟨k, hk, rfl⟩ := List.mem_map.mp hd
      rw [List.mem_range] at hk
      constructor
      · exact Nat.le_add_left _ _
      · rw [ha2len]; omega
    have hids_nodup : ids.Nodup := by
      rw [hids]
      exact (List.nodup_range _).map (fun x y h => by omega)
    have hfresh_block : FreshAt a.length a2 ids (w.deps p) := by
      have hlenf : fresh.length = (w.deps p).length := by rw [hfresh, List.length_map]
      rw [hids, hlenf]
      refine freshAt_make a2 a.length (w.deps p) a.length (Nat.le_refl _)
        (by rw [ha2len, hlenf]) ?_
      intro k hk
      have hne : a.length + k ≠ id := by omega
      have hge : a.length ≤ a.length + k := Nat.le_add_right _ _
      rw [ha2, getNode_setNode_ne _ (fun hh => hne hh.symm),
        getNode_append_right hge]
      have hsub : a.length + k - a.length = k := by omega
      rw [hsub]
      have hkf : k < fresh.length := by rw [hfresh, List.length_map]; exact hk
      have hgd : getNode fresh k = fresh.getD k (Node.mk "" [] []) := rfl
      rw [hgd, getD_irrel fresh k _ ((fun rc => Node.mk rc.2 [rc.1] []) ("", "")) hkf, hfresh,
        getD_map_pair]
    have G := ih a2 (fun i hi => Nat.lt_of_lt_of_le (hrest_val i hi) haa2) hrestN
    have hfresh_ra : ∀ k, ((getNode fresh k).referred_as).Nodup := by
      intro k
      by_cases hk : k < fresh.length
      · have hmem := getD_mem_of_lt fresh k ⟨"", [], []⟩ hk
        rw [hfresh] at hmem
        obtain ⟨rc, _, hrc2⟩ := List.mem_map.mp hmem
        have hval : getNode fresh k = Node.mk rc.2 [rc.1] [] := by
          rw [show getNode fresh k = fresh.getD k ⟨"", [], []⟩ from rfl, ← hrc2]
        rw [hval]
        exact List.nodup_singleton _
      · rw [getNode_out (Nat.le_of_not_lt hk)]
        exact List.nodup_nil
    -- compose
    refine ⟨Nat.le_trans haa2 G.len, ?_, ?_, ?_, ?_, ?_, ?_, ?_⟩
    · intro i hi
      rw [G.paths i (Nat.lt_of_lt_of_le hi haa2), ha2_path i hi]
    · intro i hi
      rw [G.ra_eq i (Nat.lt_of_lt_of_le hi haa2), ha2_ra i hi]
    · intro i hi himem
      have h1 : i ∉ rest := fun hh => himem (List.mem_cons_of_mem _ hh)
      have h2 : i ≠ id := fun hh => himem (hh ▸ List.mem_cons_self _ _)
      rw [G.untouched i (Nat.lt_of_lt_of_le hi haa2) h1, ha2_ne i hi h2]
    · -- data
      refine List.Forall₂.cons ?_ ?_
      · have hout_id : getNode (gatherFind w a2 rest).1 id = getNode a2 id :=
          G.untouched id (Nat.lt_of_lt_of_le hid haa2) hid_rest
        refine ⟨by rw [hout_id, ha2_id], hids_nodup, ?_⟩
        have hpath_out : pathAt (gatherFind w a2 rest).1 id = p := by
          rw [pathAt, hout_id, ha2_id]
          rfl
        rw [hpath_out]
        refine FreshAt_transfer hfresh_block G.len ?_
        intro d hd
        obtain ⟨h1, h2⟩ := hids_bounds d hd
        refine G.untouched d h2 ?_
        intro hh
        exact Nat.not_le_of_lt (hrest_val d hh) h1
      · refine List.Forall₂.imp ?_ G.data
        intro it ds h1
        exact ⟨h1.1, h1.2.1, FreshAt_weaken haa2 h1.2.2⟩
    · -- flat_nodup
      have hflat : ((ids :: (gatherFind w a2 rest).2.1).flatten) =
          ids ++ ((gatherFind w a2 rest).2.1).flatten := by simp
      rw [hflat, List.nodup_append]
      refine ⟨hids_nodup, G.flat_nodup, ?_⟩
      intro x hx hx2
      have h1 := (hids_bounds x hx).2
      have h2 := (G.flat_bounds x hx2).1
      omega
    · intro d hd
      have hflat : ((ids :: (gatherFind w a2 rest).2.1).flatten) =
          ids ++ ((gatherFind w a2 rest).2.1).flatten := by simp
      rw [hflat] at hd
      rcases List.mem_append.mp hd with h1 | h1
      · obtain ⟨hb1, hb2⟩ := hids_bounds d h1
        exact ⟨hb1, Nat.lt_of_lt_of_le hb2 G.len⟩
      · obtain ⟨hb1, hb2⟩ := G.flat_bounds d h1
        exact ⟨Nat.le_trans haa2 hb1, hb2⟩
    · -- ra_fresh
      intro i hi
      by_cases hi2 : i < a2.length
      · have hnot_rest : i ∉ rest := by
          intro hh
          exact Nat.not_le_of_lt (hrest_val i hh) hi
        have hne_id : id ≠ i := by
          intro hh
          exact Nat.not_le_of_lt (hh ▸ hid) hi
        rw [G.untouched i hi2 hnot_rest, ha2, getNode_setNode_ne _ hne_id,
          getNode_append_right hi]
        exact hfresh_ra (i - a.length)
      · exact G.ra_fresh i (Nat.le_of_not_lt hi2)

/-! ## The `collect` loop invariant -/

/-- Everything discovered so far: the ids in `all_resolved` plus the queued
frontier ids still on the stack. -/
def idsOf (s : CState) : List Nat := s.resolved ++ s.stack.flatten

/-- The invariant of `collect`'s `while` loop.  The guarded components:
`ra_nodup` holds whenever the root's reference strings are distinct, `nonsys`
whenever the root itself is not a system path, and `edges` whenever no binary
lists the same canonical path among its references twice. -/
structure Inv (w : World) (root : Node) (s : CState) : Prop where
  valid : ∀ i ∈ idsOf s, i < s.arena.length
  nodupIds : (idsOf s).Nodup
  nodupPaths : (pathsAt s.arena (idsOf s)).Nodup
  stackShape : s.stack = [] ∨ ∃ f, s.stack = [f] ∧ f ≠ []
  rootMem : 0 ∈ idsOf s ∧ pathAt s.arena 0 = root.path
  sound : ∀ i ∈ idsOf s, NsReach w root.path (pathAt s.arena i)
  complete : ∀ i ∈ s.resolved, ∀ rc ∈ w.deps (pathAt s.arena i), w.sys rc.2 = false →
      rc.2 ∈ pathsAt s.arena (idsOf s)
  refs : ∀ i ∈ s.resolved, ∀ rc ∈ w.deps (pathAt s.arena i), w.sys rc.2 = false →
      ∃ j, j ∈ idsOf s ∧ pathAt s.arena j = rc.2 ∧
        rc.1 ∈ (getNode s.arena j).referred_as
  ra_nodup : root.referred_as.Nodup → ∀ i, ((getNode s.arena i).referred_as).Nodup
  nonsys : w.sys root.path = false → ∀ i ∈ idsOf s, w.sys (pathAt s.arena i) = false
  edges_valid : ∀ i ∈ s.resolved, ∀ e ∈ (getNode s.arena i).dependencies,
      e < s.arena.length
  edges : (∀ p, ((w.deps p).map Prod.snd).Nodup) → ∀ i ∈ s.resolved,
      ∀ e ∈ (getNode s.arena i).dependencies, w.sys (pathAt s.arena e) = false →
        e ∈ idsOf s

theorem Inv_init (w : World) (root : Node) :
    Inv w root ⟨[⟨root.path, root.referred_as, []⟩], [], [[0]], []⟩ := by
  have hids : idsOf ⟨[⟨root.path, root.referred_as, []⟩], [], [[0]], []⟩ = [0] := rfl
  have hpath0 : pathAt [(⟨root.path, root.referred_as, []⟩ : Node)] 0 = root.path := rfl
  refine ⟨?_, ?_, ?_, ?_, ?_, ?_, ?_, ?_, ?_, ?_, ?_, ?_⟩
  · intro i hi
    rw [hids] at hi
    have h0 : i = 0 := by simpa using hi
    subst h0; simp
  · rw [hids]; exact List.nodup_singleton _
  · rw [hids]; exact List.nodup_singleton _
  · exact Or.inr ⟨[0], rfl, by simp⟩
  · exact ⟨by rw [hids]; simp, hpath0⟩
  · intro i hi
    rw [hids] at hi
    have h0 : i = 0 := by simpa using hi
    subst h0
    rw [hpath0]
    exact NsReach.refl
  · intro i hi; simp at hi
  · intro i hi; simp at hi
  · intro hroot i
    cases i with
    | zero => exact hroot
    | succ i' =>
      rw [getNode_out (by simp)]
      exact List.nodup_nil
  · intro hroot i hi
    rw [hids] at hi
    have h0 : i = 0 := by simpa using hi
    subst h0
    rw [hpath0]
    exact hroot
  · intro i hi; simp at hi
  · intro _ i hi; simp at hi

theorem collectStep_inv {w : World} {root : Node} {s : CState} {f : List Nat}
    (hstack : s.stack = [f]) (hinv : Inv w root s) :
    Inv w root (collectStep w s f) ∧
      (collectStep w s f).resolved = s.resolved ++ f := by
  have hids_s : idsOf s = s.resolved ++ f := by rw [idsOf, hstack]; simp
  have hfval : ∀ i ∈ f, i < s.arena.length := fun i hi =>
    hinv.valid i (by rw [hids_s]; exact List.mem_append.mpr (Or.inr hi))
  have hRval : ∀ i ∈ s.resolved ++ f, i < s.arena.length := fun i hi =>
    hinv.valid i (by rw [hids_s]; exact hi)
  have hfN : f.Nodup := by
    have h1 := hinv.nodupIds
    rw [hids_s, List.nodup_append] at h1
    exact h1.2.1
  have hdisj : ∀ i ∈ s.resolved, i ∉ f := by
    have h1 := hinv.nodupIds
    rw [hids_s, List.nodup_append] at h1
    exact fun i hi => h1.2.2 hi
  have G := gatherFind_spec w f s.arena hfval hfN
  have hlen_fg : f.length = (gatherFind w s.arena f).2.1.length := G.data.length_eq
  have hpairs_fst : (f.zip (gatherFind w s.arena f).2.1).map Prod.fst = f :=
    List.map_fst_zip _ _ (le_of_eq hlen_fg)
  have hpairs_snd : (f.zip (gatherFind w s.arena f).2.1).map Prod.snd =
      (gatherFind w s.arena f).2.1 :=
    List.map_snd_zip _ _ (le_of_eq hlen_fg.symm)
  have hdata : ∀ pr ∈ f.zip (gatherFind w s.arena f).2.1,
      (getNode (gatherFind w s.arena f).1 pr.1).dependencies = pr.2 ∧ pr.2.Nodup ∧
        FreshAt s.arena.length (gatherFind w s.arena f).1 pr.2
          (w.deps (pathAt (gatherFind w s.arena f).1 pr.1)) := by
    intro pr hpr
    obtain ⟨x, y⟩ := pr
    exact (List.forall₂_iff_zip.mp G.data).2 hpr
  have hprR : ∀ pr ∈ f.zip (gatherFind w s.arena f).2.1, pr.1 ∈ s.resolved ++ f := by
    intro pr hpr
    obtain ⟨x, y⟩ := pr
    exact List.mem_append.mpr (Or.inr (List.of_mem_zip hpr).1)
  have hfstN : ((f.zip (gatherFind w s.arena f).2.1).map Prod.fst).Nodup := by
    rw [hpairs_fst]; exact hfN
  have hflatN : (((f.zip (gatherFind w s.arena f).2.1).map Prod.snd).flatten).Nodup := by
    rw [hpairs_snd]; exact G.flat_nodup
  have hRsound : ∀ i ∈ s.resolved ++ f,
      NsReach w root.path (pathAt (gatherFind w s.arena f).1 i) := by
    intro i hi
    rw [G.paths i (hRval i hi)]
    exact hinv.sound i (by rw [hids_s]; exact hi)
  have hpN0 : (pathsAt (gatherFind w s.arena f).1 ((s.resolved ++ f) ++ [])).Nodup := by
    rw [List.append_nil]
    have h1 : pathsAt (gatherFind w s.arena f).1 (s.resolved ++ f) =
        pathsAt s.arena (s.resolved ++ f) :=
      pathsAt_congr (fun i hi => G.paths i (hRval i hi))
    rw [h1, ← hids_s]
    exact hinv.nodupPaths
  have I := processItems_spec w root.path (s.resolved ++ f) s.arena.length
    (f.zip (gatherFind w s.arena f).2.1) (gatherFind w s.arena f).1 []
    hRval G.len hprR hfstN hflatN (fun x _ hx => by simp at hx) hdata hRsound
    (fun x hx => by simp at hx) List.nodup_nil hpN0
    (fun x hx => by simp at hx) (fun x hx => by simp at hx)
  -- abbreviations for the two phases
  have harena : (collectStep w s f).arena =
      (processItems w (s.resolved ++ f) ((gatherFind w s.arena f).1, [])
        (f.zip (gatherFind w s.arena f).2.1)).1 := rfl
  have hresolved : (collectStep w s f).resolved = s.resolved ++ f := rfl
  have hdrop : s.stack.dropLast = [] := by rw [hstack]; rfl
  have hids' : idsOf (collectStep w s f) = (s.resolved ++ f) ++
      (processItems w (s.resolved ++ f) ((gatherFind w s.arena f).1, [])
        (f.zip (gatherFind w s.arena f).2.1)).2 := by
    show (s.resolved ++ f) ++
        (if (processItems w (s.resolved ++ f) ((gatherFind w s.arena f).1, [])
            (f.zip (gatherFind w s.arena f).2.1)).2.isEmpty
         then s.stack.dropLast
         else s.stack.dropLast ++
            [(processItems w (s.resolved ++ f) ((gatherFind w s.arena f).1, [])
              (f.zip (gatherFind w s.arena f).2.1)).2]).flatten = _
    rw [hdrop]
    by_cases hemp : (processItems w (s.resolved ++ f) ((gatherFind w s.arena f).1, [])
        (f.zip (gatherFind w s.arena f).2.1)).2.isEmpty
    · rw [if_pos hemp]
      have h0 : (processItems w (s.resolved ++ f) ((gatherFind w s.arena f).1, [])
          (f.zip (gatherFind w s.arena f).2.1)).2 = [] := by
        simpa using hemp
      rw [h0]
      rfl
    · rw [if_neg hemp]
      simp
  have hpaths_mid : ∀ i, i < s.arena.length →
      pathAt (processItems w (s.resolved ++ f) ((gatherFind w s.arena f).1, [])
        (f.zip (gatherFind w s.arena f).2.1)).1 i = pathAt s.arena i :=
    fun i hi => (I.paths i).trans (G.paths i hi)
  have hpair_of_f : ∀ i ∈ f, ∃ pr, pr ∈ f.zip (gatherFind w s.arena f).2.1 ∧ pr.1 = i := by
    intro i hi
    have h1 : i ∈ (f.zip (gatherFind w s.arena f).2.1).map Prod.fst := by
      rw [hpairs_fst]; exact hi
    obtain ⟨pr, hpr, hpr1⟩ := List.mem_map.mp h1
    exact ⟨pr, hpr, hpr1⟩
  have hdeps_old : ∀ i ∈ s.resolved,
      (getNode (processItems w (s.resolved ++ f) ((gatherFind w s.arena f).1, [])
        (f.zip (gatherFind w s.arena f).2.1)).1 i).dependencies =
      (getNode s.arena i).dependencies := by
    intro i hi
    have hnotf : i ∉ f := hdisj i hi
    rw [I.deps_frame i (by rw [hpairs_fst]; exact hnotf)]
    rw [G.untouched i (hRval i (List.mem_append.mpr (Or.inl hi))) hnotf]
  refine ⟨⟨?_, ?_, ?_, ?_, ?_, ?_, ?_, ?_, ?_, ?_, ?_, ?_⟩, hresolved⟩
  · -- valid
    intro i hi
    rw [hids'] at hi
    rw [harena]
    rcases List.mem_append.mp hi with h1 | h1
    · calc i < s.arena.length := hRval i h1
        _ ≤ (gatherFind w s.arena f).1.length := G.len
        _ = _ := I.len.symm
    · exact (I.t_bounds i h1).2
  · -- nodupIds
    rw [hids', List.nodup_append]
    refine ⟨by rw [← hids_s]; exact hinv.nodupIds, I.t_nodup, ?_⟩
    intro i hi hi2
    exact Nat.not_le_of_lt (hRval i hi) (I.t_bounds i hi2).1
  · -- nodupPaths
    rw [hids', harena]
    exact I.paths_nodup
  · -- stackShape
    have hstk : (collectStep w s f).stack =
        (if (processItems w (s.resolved ++ f) ((gatherFind w s.arena f).1, [])
            (f.zip (gatherFind w s.arena f).2.1)).2.isEmpty
         then ([] : List (List Nat))
         else [(processItems w (s.resolved ++ f) ((gatherFind w s.arena f).1, [])
            (f.zip (gatherFind w s.arena f).2.1)).2]) := by
      show (if (processItems w (s.resolved ++ f) ((gatherFind w s.arena f).1, [])
          (f.zip (gatherFind w s.arena f).2.1)).2.isEmpty
        then s.stack.dropLast
        else s.stack.dropLast ++
          [(processItems w (s.resolved ++ f) ((gatherFind w s.arena f).1, [])
            (f.zip (gatherFind w s.arena f).2.1)).2]) = _
      rw [hdrop]
      by_cases hemp : (processItems w (s.resolved ++ f) ((gatherFind w s.arena f).1, [])
          (f.zip (gatherFind w s.arena f).2.1)).2.isEmpty
      · rw [if_pos hemp, if_pos hemp]
      · rw [if_neg hemp, if_neg hemp]; rfl
    rw [hstk]
    by_cases hemp : (processItems w (s.resolved ++ f) ((gatherFind w s.arena f).1, [])
        (f.zip (gatherFind w s.arena f).2.1)).2.isEmpty
    · rw [if_pos hemp]; exact Or.inl rfl
    · rw [if_neg hemp]
      refine Or.inr ⟨_, rfl, ?_⟩
      intro hh
      rw [hh] at hemp
      exact hemp rfl
  · -- rootMem
    constructor
    · rw [hids']
      refine List.mem_append.mpr (Or.inl ?_)
      have h0 := hinv.rootMem.1
      rw [hids_s] at h0
      exact h0
    · rw [harena, hpaths_mid 0 (hinv.valid 0 hinv.rootMem.1)]
      exact hinv.rootMem.2
  · -- sound
    intro i hi
    rw [hids'] at hi
    rw [harena]
    rcases List.mem_append.mp hi with h1 | h1
    · rw [hpaths_mid i (hRval i h1)]
      exact hinv.sound i (by rw [hids_s]; exact h1)
    · exact I.t_sound i h1
  · -- complete
    intro i hi rc hrc hsysrc
    rw [hresolved] at hi
    rw [harena] at hrc ⊢
    rw [hids']
    rcases List.mem_append.mp hi with h1 | h1
    · rw [hpaths_mid i (hRval i hi)] at hrc
      have h2 := hinv.complete i h1 rc hrc hsysrc
      rw [hids_s] at h2
      obtain ⟨j, hj, hjp⟩ := mem_pathsAt.mp h2
      refine mem_pathsAt.mpr ⟨j, List.mem_append.mpr (Or.inl hj), ?_⟩
      rw [hpaths_mid j (hRval j hj)]
      exact hjp
    · obtain ⟨pr, hpr, hpr1⟩ := hpair_of_f i h1
      have hrc' : rc ∈ w.deps (pathAt (gatherFind w s.arena f).1 pr.1) := by
        rw [hpr1, G.paths i (hRval i hi)]
        rw [hpaths_mid i (hRval i hi)] at hrc
        exact hrc
      obtain ⟨j, hj1, hj2, _⟩ := I.registered pr hpr rc hrc' hsysrc
      exact mem_pathsAt.mpr ⟨j, hj1, hj2⟩
  · -- refs
    intro i hi rc hrc hsysrc
    rw [hresolved] at hi
    rw [harena] at hrc ⊢
    rw [hids']
    rcases List.mem_append.mp hi with h1 | h1
    · rw [hpaths_mid i (hRval i hi)] at hrc
      obtain ⟨j, hj1, hj2, hj3⟩ := hinv.refs i h1 rc hrc hsysrc
      rw [hids_s] at hj1
      refine ⟨j, List.mem_append.mpr (Or.inl hj1), ?_, ?_⟩
      · rw [hpaths_mid j (hRval j hj1)]; exact hj2
      · refine I.ra_mono j rc.1 ?_
        rw [G.ra_eq j (hRval j hj1)]
        exact hj3
    · obtain ⟨pr, hpr, hpr1⟩ := hpair_of_f i h1
      have hrc' : rc ∈ w.deps (pathAt (gatherFind w s.arena f).1 pr.1) := by
        rw [hpr1, G.paths i (hRval i hi)]
        rw [hpaths_mid i (hRval i hi)] at hrc
        exact hrc
      exact I.registered pr hpr rc hrc' hsysrc
  · -- ra_nodup
    intro hroot i
    rw [harena]
    have hg_all : ∀ j, ((getNode (gatherFind w s.arena f).1 j).referred_as).Nodup := by
      intro j
      by_cases hj : j < s.arena.length
      · rw [G.ra_eq j hj]
        exact hinv.ra_nodup hroot j
      · exact G.ra_fresh j (Nat.le_of_not_lt hj)
    exact I.ra_nodup hg_all i
  · -- nonsys
    intro hroot i hi
    rw [hids'] at hi
    rw [harena]
    rcases List.mem_append.mp hi with h1 | h1
    · rw [hpaths_mid i (hRval i h1)]
      exact hinv.nonsys hroot i (by rw [hids_s]; exact h1)
    · exact I.t_nonsys i h1
  · -- edges_valid
    intro i hi e he
    rw [hresolved] at hi
    rw [harena] at he ⊢
    rcases List.mem_append.mp hi with h1 | h1
    · rw [hdeps_old i h1] at he
      calc e < s.arena.length := hinv.edges_valid i h1 e he
        _ ≤ (gatherFind w s.arena f).1.length := G.len
        _ = _ := I.len.symm
    · obtain ⟨pr, hpr, hpr1⟩ := hpair_of_f i h1
      rw [← hpr1] at he
      rcases I.deps_subset pr hpr e he with h2 | h2
      · obtain ⟨hd1, _, hd3⟩ := hdata pr hpr
        rw [hd1] at h2
        have hb := hd3.bounds e h2
        calc e < (gatherFind w s.arena f).1.length := hb.2
          _ = _ := I.len.symm
      · rcases h2 with h3 | h3
        · calc e < s.arena.length := hRval e h3
            _ ≤ (gatherFind w s.arena f).1.length := G.len
            _ = _ := I.len.symm
        · exact (I.t_bounds e h3).2
  · -- edges
    intro H i hi e he hsyse
    rw [hresolved] at hi
    rw [harena] at he hsyse
    rw [hids']
    rcases List.mem_append.mp hi with h1 | h1
    · rw [hdeps_old i h1] at he
      have heB : e < s.arena.length := hinv.edges_valid i h1 e he
      rw [hpaths_mid e heB] at hsyse
      have h2 := hinv.edges H i h1 e he hsyse
      rw [hids_s] at h2
      exact List.mem_append.mpr (Or.inl h2)
    · obtain ⟨pr, hpr, hpr1⟩ := hpair_of_f i h1
      rw [← hpr1] at he
      exact I.edges_all H pr hpr e he hsyse

/-! ## The loop: invariant propagation and termination -/

theorem collectLoop_zero_empty {w : World} {s : CState} (h : s.stack = []) :
    collectLoop w 0 s = some s := by
  rw [collectLoop, if_pos (by rw [h]; rfl)]

theorem collectLoop_zero_nonempty {w : World} {s : CState} (h : ¬s.stack.isEmpty) :
    collectLoop w 0 s = none := by
  rw [collectLoop, if_neg h]

theorem collectLoop_succ_none {w : World} {fuel : Nat} {s : CState} (h : s.stack = []) :
    collectLoop w (fuel + 1) s = some s := by
  rw [collectLoop, show s.stack.getLast? = none by rw [h]; rfl]

theorem collectLoop_succ_some {w : World} {fuel : Nat} {s : CState} {f : List Nat}
    (h : s.stack = [f]) :
    collectLoop w (fuel + 1) s = collectLoop w fuel (collectStep w s f) := by
  rw [collectLoop, show s.stack.getLast? = some f by rw [h]; rfl]

theorem collectLoop_inv {w : World} {root : Node} :
    ∀ (fuel : Nat) (s : CState), Inv w root s →
      ∀ st, collectLoop w fuel s = some st → Inv w root st ∧ st.stack = [] := by
  intro fuel
  induction fuel with
  | zero =>
    intro s hinv st h
    by_cases hemp : s.stack.isEmpty
    · have hse : s.stack = [] := by simpa using hemp
      rw [collectLoop_zero_empty hse] at h
      cases h
      exact ⟨hinv, hse⟩
    · rw [collectLoop_zero_nonempty hemp] at h
      cases h
  | succ fuel ih =>
    intro s hinv st h
    rcases hinv.stackShape with h1 | ⟨f, h1, hf⟩
    · rw [collectLoop_succ_none h1] at h
      cases h
      exact ⟨hinv, h1⟩
    · rw [collectLoop_succ_some h1] at h
      exact ih _ (collectStep_inv h1 hinv).1 st h

theorem NsReach_mem_U {w : World} {U : List String} {start p : String}
    (hU : ∀ q ∈ U, ∀ rc ∈ w.deps q, w.sys rc.2 = false → rc.2 ∈ U)
    (hstart : start ∈ U) (h : NsReach w start p) : p ∈ U := by
  induction h with
  | refl => exact hstart
  | step s h1 h2 h3 ih => exact hU _ ih _ h2 h3

theorem collectLoop_total {w : World} {root : Node} {U : List String}
    (hU : ∀ q ∈ U, ∀ rc ∈ w.deps q, w.sys rc.2 = false → rc.2 ∈ U)
    (hrootU : root.path ∈ U) :
    ∀ (fuel : Nat) (s : CState), Inv w root s →
      U.length < fuel + s.resolved.length →
      ∃ st, collectLoop w fuel s = some st := by
  intro fuel
  induction fuel with
  | zero =>
    intro s hinv hm
    rcases hinv.stackShape with h1 | ⟨f, h1, hf⟩
    · exact ⟨s, collectLoop_zero_empty h1⟩
    · exfalso
      have hsub : ∀ p ∈ pathsAt s.arena (idsOf s), p ∈ U := by
        intro p hp
        obtain ⟨i, hi, hip⟩ := mem_pathsAt.mp hp
        exact hip ▸ NsReach_mem_U hU hrootU (hinv.sound i hi)
      have hlen := (List.subperm_of_subset hinv.nodupPaths hsub).length_le
      have hlen2 : (pathsAt s.arena (idsOf s)).length = s.resolved.length + f.length := by
        rw [pathsAt, List.length_map, idsOf, h1]
        simp
      have hf1 : 1 ≤ f.length := by
        cases f with
        | nil => exact absurd rfl hf
        | cons _ _ => simp
      omega
  | succ fuel ih =>
    intro s hinv hm
    rcases hinv.stackShape with h1 | ⟨f, h1, hf⟩
    · exact ⟨s, collectLoop_succ_none h1⟩
    · rw [collectLoop_succ_some h1]
      obtain ⟨hinv', hres⟩ := collectStep_inv h1 hinv
      refine ih _ hinv' ?_
      rw [hres, List.length_append]
      have hf1 : 1 ≤ f.length := by
        cases f with
        | nil => exact absurd rfl hf
        | cons _ _ => simp
      omega

theorem collect_inv {w : World} {root : Node} {fuel : Nat} {st : CState}
    (h : collect w fuel root = some st) : Inv w root st ∧ st.stack = [] :=
  collectLoop_inv fuel _ (Inv_init w root) st h

theorem collect_total {w : World} {root : Node} {U : List String}
    (hU : ∀ q ∈ U, ∀ rc ∈ w.deps q, w.sys rc.2 = false → rc.2 ∈ U)
    (hrootU : root.path ∈ U) {fuel : Nat} (hfuel : U.length < fuel) :
    ∃ st, collect w fuel root = some st := by
  refine collectLoop_total hU hrootU fuel _ (Inv_init w root) ?_
  simpa using hfuel

/-- The paths of the resolved set are exactly the non-system transitive
closure of the root's references. -/
theorem collect_resolved_paths {w : World} {root : Node} {fuel : Nat} {st : CState}
    (h : collect w fuel root = some st) :
    ∀ p, p ∈ pathsAt st.arena st.resolved ↔ NsReach w root.path p := by
  obtain ⟨hinv, hstk⟩ := collect_inv h
  have hids : idsOf st = st.resolved := by rw [idsOf, hstk]; simp
  intro p
  constructor
  · intro hp
    obtain ⟨i, hi, hip⟩ := mem_pathsAt.mp hp
    exact hip ▸ hinv.sound i (by rw [hids]; exact hi)
  · intro hp
    induction hp with
    | refl =>
      have h0 := hinv.rootMem
      rw [hids] at h0
      exact mem_pathsAt.mpr ⟨0, h0.1, h0.2⟩
    | step sref h1 h2 h3 ih =>
      obtain ⟨i, hi, hip⟩ := mem_pathsAt.mp ih
      have h4 := hinv.complete i hi (sref, _) (by rw [hip]; exact h2) h3
      rw [hids] at h4
      exact h4

/-! ## Support lemmas for the claims -/

theorem isAbsolute_pjoin (a b : String) (h : isAbsolute a = true) :
    isAbsolute (pjoin a b) = true := by
  rw [isAbsolute] at h ⊢
  rw [pjoin, String.data_append, String.data_append, List.head?_append,
    List.head?_append]
  have h1 : a.data.head? = some '/' := by simpa using h
  rw [h1]
  rfl

theorem flatten_map_flatten {α β : Type _} (f : α → List β) :
    ∀ (L : List (List α)),
      ((L.flatten).map f).flatten = (L.map (fun l => (l.map f).flatten)).flatten := by
  intro L
  induction L with
  | nil => rfl
  | cons l L' ih =>
    simp only [List.flatten_cons, List.map_append, List.flatten_append, List.map_cons, ih]

theorem mem_zip_map {α β : Type _} (f : α → β) :
    ∀ (l : List α) (x : α), x ∈ l → (x, f x) ∈ l.zip (l.map f) := by
  intro l
  induction l with
  | nil => intro x hx; simp at hx
  | cons y ys ih =>
    intro x hx
    rcases List.mem_cons.mp hx with rfl | hmem
    · exact List.mem_cons_self _ _
    · exact List.mem_cons_of_mem _ (ih x hmem)

theorem getDirectDependencies_nonsys (w : World) (a : List Node) (i : Nat) :
    ∀ e ∈ getDirectDependencies w a i, w.sys (pathAt a e) = false := by
  intro e he
  have h1 := (List.mem_filter.mp he).2
  simpa using h1

theorem getDepsAux_nonsys (w : World) (a : List Node) (rootPath : String) :
    ∀ (fuel : Nat) (acc queue : List Nat),
      (∀ x ∈ acc, w.sys (pathAt a x) = false) →
      (∀ x ∈ queue, w.sys (pathAt a x) = false) →
      ∀ x ∈ getDepsAux w a rootPath fuel acc queue, w.sys (pathAt a x) = false := by
  intro fuel
  induction fuel with
  | zero =>
    intro acc queue hacc _ x hx
    rw [getDepsAux] at hx
    exact hacc x hx
  | succ fuel ih =>
    intro acc queue hacc hqueue x hx
    cases queue with
    | nil =>
      rw [getDepsAux] at hx
      exact hacc x hx
    | cons q qs =>
      rw [getDepsAux] at hx
      by_cases hcond : pathAt a q = rootPath ∨ pathAt a q ∈ pathsAt a acc
      · rw [if_pos hcond] at hx
        exact ih acc qs hacc (fun y hy => hqueue y (List.mem_cons_of_mem _ hy)) x hx
      · rw [if_neg hcond] at hx
        refine ih (acc ++ [q]) (qs ++ getDirectDependencies w a q) ?_ ?_ x hx
        · intro y hy
          rcases List.mem_append.mp hy with h1 | h1
          · exact hacc y h1
          · have hyq : y = q := by simpa using h1
            subst hyq
            exact hqueue y (List.mem_cons_self _ _)
        · intro y hy
          rcases List.mem_append.mp hy with h1 | h1
          · exact hqueue y (List.mem_cons_of_mem _ h1)
          · exact getDirectDependencies_nonsys w a q y h1

theorem getDependencies_nonsys (w : World) (a : List Node) (gfuel rootId : Nat) :
    ∀ x ∈ getDependencies w a gfuel rootId, w.sys (pathAt a x) = false := by
  rw [getDependencies]
  exact getDepsAux_nonsys w a _ gfuel [] _ (fun y hy => by simp at hy)
    (getDirectDependencies_nonsys w a rootId)

theorem changeTriples_mem {w : World} {a : List Node} {rootId : Nat} {rlp : String}
    {itemId j : Nat} {r : String}
    (hj : j ∈ getDirectDependencies w a itemId) (hr : r ∈ (getNode a j).referred_as) :
    ∃ nr, (r, nr) ∈ changeTriples w a rootId rlp itemId := by
  refine ⟨pjoin (if pathAt a j = pathAt a rootId then "@loader_path"
      else if pathAt a itemId = pathAt a rootId then rlp else "@loader_path")
      (basename (pathAt a j)), ?_⟩
  rw [changeTriples]
  refine List.mem_flatten.mpr ⟨_, List.mem_map.mpr ⟨j, hj, rfl⟩, ?_⟩
  exact List.mem_map.mpr ⟨r, hr, rfl⟩

/-! ## Claims -/

/-- C2: for every root whose dependency references stay inside a finite
universe `U` of canonical paths closed under non-system references — cycles
included — `collect` terminates within `|U| + 1` waves with an empty stack, a
node placed in `all_resolved` is never re-queued (the resolved ids and their
canonical paths are duplicate-free, so each library gets exactly one node),
and the canonical paths of the resolved set are exactly the transitive
closure of the root's non-system dependencies. -/
theorem collect_terminates_closure
    (w : World) (root : Node) (U : List String) (fuel : Nat)
    (hU : ∀ q ∈ U, ∀ rc ∈ w.deps q, w.sys rc.2 = false → rc.2 ∈ U)
    (hrootU : root.path ∈ U) (hfuel : U.length < fuel) :
    ∃ st, collect w fuel root = some st ∧ st.stack = [] ∧
      st.resolved.Nodup ∧ (pathsAt st.arena st.resolved).Nodup ∧
      ∀ p, p ∈ pathsAt st.arena st.resolved ↔ NsReach w root.path p := by
  obtain ⟨st, hst⟩ := collect_total hU hrootU hfuel
  obtain ⟨hinv, hstk⟩ := collect_inv hst
  have hids : idsOf st = st.resolved := by rw [idsOf, hstk]; simp
  refine ⟨st, hst, hstk, ?_, ?_, collect_resolved_paths hst⟩
  · have h1 := hinv.nodupIds
    rw [hids] at h1
    exact h1
  · have h1 := hinv.nodupPaths
    rw [hids] at h1
    exact h1

/-- Witness for C2: the cyclic reference graph `/r → /a → /b → /a` resolves
with fuel `4` inside the universe of its three paths. -/
theorem collect_terminates_closure_witness :
    ∃ st, collect wCyc 4 rootCyc = some st ∧ st.stack = [] ∧
      st.resolved.Nodup ∧ (pathsAt st.arena st.resolved).Nodup ∧
      ∀ p, p ∈ pathsAt st.arena st.resolved ↔ NsReach wCyc rootCyc.path p :=
  collect_terminates_closure wCyc rootCyc ["/r", "/a", "/b"] 4
    (by decide) (by decide) (by decide)

/-- C1 (counterexample): in `wDup` the root references the same canonical
path `/a` by two distinct strings.  After `collect`, both node `1` and the
stale node `2` are reachable from the root through the outgoing edges, they
share the canonical path, yet they are different nodes t and node `2` is not a
member of the resolved set — refuting the claim that in the closed graph
equal canonical path implies identical node and that every outgoing edge
lands in the resolved set. -/
theorem collect_single_instance_counterexample :
    collect wDup 3 rootDup = some stDup ∧
    ReachesId wDup stDup.arena 0 1 ∧ ReachesId wDup stDup.arena 0 2 ∧
    pathAt stDup.arena 1 = pathAt stDup.arena 2 ∧ (1 : Nat) ≠ 2 ∧
    2 ∈ getDirectDependencies wDup stDup.arena 0 ∧ 2 ∉ stDup.resolved := by
  refine ⟨rfl, ?_, ?_, rfl, by decide, by decide, by decide⟩
  · exact ReachesId.step ReachesId.refl (by decide)
  · exact ReachesId.step ReachesId.refl (by decide)

/-- C1 (amended): provided no binary lists the same canonical path twice
among its references, the closed graph has at most one node per canonical
path — any two nodes reachable from the root with equal canonical path are
the same node — and every outgoing edge of a resolved node is itself a member
of the resolved set. -/
theorem collect_single_instance
    (w : World) (root : Node) (fuel : Nat) (st : CState)
    (hdup : ∀ p, ((w.deps p).map Prod.snd).Nodup)
    (h : collect w fuel root = some st) :
    (∀ x, ReachesId w st.arena 0 x → x ∈ st.resolved) ∧
    (∀ x y, ReachesId w st.arena 0 x → ReachesId w st.arena 0 y →
      pathAt st.arena x = pathAt st.arena y → x = y) ∧
    (∀ i ∈ st.resolved, ∀ e ∈ getDirectDependencies w st.arena i,
      e ∈ st.resolved) := by
  obtain ⟨hinv, hstk⟩ := collect_inv h
  have hids : idsOf st = st.resolved := by rw [idsOf, hstk]; simp
  have hedges : ∀ i ∈ st.resolved, ∀ e ∈ getDirectDependencies w st.arena i,
      e ∈ st.resolved := by
    intro i hi e he
    have hns : w.sys (pathAt st.arena e) = false := by
      have h2 := (List.mem_filter.mp he).2
      simpa using h2
    have h1 := hinv.edges hdup i hi e (List.mem_filter.mp he).1 hns
    rw [hids] at h1
    exact h1
  have hreach : ∀ x, ReachesId w st.arena 0 x → x ∈ st.resolved := by
    intro x hx
    induction hx with
    | refl =>
      have h0 := hinv.rootMem.1
      rw [hids] at h0
      exact h0
    | step h1 h2 ih => exact hedges _ ih _ h2
  refine ⟨hreach, ?_, hedges⟩
  intro x y hx hy hpeq
  have hnp := hinv.nodupPaths
  rw [hids, pathsAt] at hnp
  exact List.inj_on_of_nodup_map hnp (hreach x hx) (hreach y hy) hpeq

/-- Witness for the amended C1 at the cyclic world, whose binaries each list
distinct canonical paths. -/
theorem collect_single_instance_witness :
    (∀ x, ReachesId wCyc stCyc.arena 0 x → x ∈ stCyc.resolved) ∧
    (∀ x y, ReachesId wCyc stCyc.arena 0 x → ReachesId wCyc stCyc.arena 0 y →
      pathAt stCyc.arena x = pathAt stCyc.arena y → x = y) ∧
    (∀ i ∈ stCyc.resolved, ∀ e ∈ getDirectDependencies wCyc stCyc.arena i,
      e ∈ stCyc.resolved) :=
  collect_single_instance wCyc rootCyc 4 stCyc
    (by
      intro p
      show ((if p = "/r" then [("a", "/a")]
        else if p = "/a" then [("b", "/b")]
        else if p = "/b" then [("a", "/a")] else []).map Prod.snd).Nodup
      split_ifs <;> decide)
    rfl

/-- C4: when a dependency with canonical path `p` is referenced by string
`r1` from consumer `X` and by `r2` from consumer `Y`, the closed graph holds
a single node for `p`, its `referred_as` contains both strings without
duplicates, and for every consumer holding an edge onto that node the patch
loop emits one `-change` pair per recorded string. -/
theorem collect_reference_accumulation
    (w : World) (root : Node) (fuel : Nat) (st : CState)
    (hra : root.referred_as.Nodup)
    (h : collect w fuel root = some st)
    (X Y : Nat) (r1 r2 p : String)
    (hX : X ∈ st.resolved) (hY : Y ∈ st.resolved)
    (h1 : (r1, p) ∈ w.deps (pathAt st.arena X))
    (h2 : (r2, p) ∈ w.deps (pathAt st.arena Y))
    (hp : w.sys p = false) :
    ∃ j, j ∈ st.resolved ∧ pathAt st.arena j = p ∧
      (∀ j', j' ∈ st.resolved → pathAt st.arena j' = p → j' = j) ∧
      r1 ∈ (getNode st.arena j).referred_as ∧
      r2 ∈ (getNode st.arena j).referred_as ∧
      ((getNode st.arena j).referred_as).Nodup ∧
      ∀ itemId rootId rlp, j ∈ getDirectDependencies w st.arena itemId →
        ∀ r ∈ (getNode st.arena j).referred_as,
          ∃ nr, (r, nr) ∈ changeTriples w st.arena rootId rlp itemId := by
  obtain ⟨hinv, hstk⟩ := collect_inv h
  have hids : idsOf st = st.resolved := by rw [idsOf, hstk]; simp
  obtain ⟨j1, hj1m, hj1p, hj1r⟩ := hinv.refs X hX (r1, p) h1 hp
  obtain ⟨j2, hj2m, hj2p, hj2r⟩ := hinv.refs Y hY (r2, p) h2 hp
  rw [hids] at hj1m hj2m
  have hnp := hinv.nodupPaths
  rw [hids, pathsAt] at hnp
  have hj12 : j2 = j1 :=
    List.inj_on_of_nodup_map hnp hj2m hj1m (by rw [hj2p, hj1p])
  subst hj12
  refine ⟨j2, hj1m, hj1p, ?_, hj1r, hj2r, hinv.ra_nodup hra j2, ?_⟩
  · intro j' hj'm hj'p
    exact List.inj_on_of_nodup_map hnp hj'm hj1m (by rw [hj'p, hj1p])
  · intro itemId rootId rlp hjd r hrr
    exact changeTriples_mem hjd hrr

/-- The three-case rule of the spec coincides with the two sequential
conditional assignments in `patch`. -/
theorem newRef_cases (rootPath rlp itemPath depPath : String) :
    pjoin (if depPath = rootPath then "@loader_path"
      else if itemPath = rootPath then rlp else "@loader_path") (basename depPath)
      = plannedNewRef rootPath rlp itemPath depPath := by
  rw [plannedNewRef]
  by_cases hd : depPath = rootPath
  · rw [if_pos hd, if_pos hd, hd]
  · rw [if_neg hd, if_neg hd]
    by_cases hi : itemPath = rootPath
    · rw [if_pos hi, if_pos hi]
    · rw [if_neg hi, if_neg hi]

/-- C3: the `install_name_tool` argument list `patch` builds for an item is
exactly what the Patch Planner of the spec prescribes: the `-id` directive
sets the item's self-identifier to `@loader_path` joined with its declared
file name, and every recorded reference string of every outgoing edge is
rewritten by the three-case rule (dependency is the root / the consumer is
the root / sibling). -/
theorem patchArgsFor_eq_plannedArgs (w : World) (a : List Node) (rootId : Nat)
    (destPath rootLoaderPath : String) (itemId : Nat) :
    patchArgsFor w a rootId destPath rootLoaderPath itemId =
      plannedArgs w a rootId destPath rootLoaderPath itemId := by
  rw [patchArgsFor, plannedArgs, changeTriples]
  congr 1
  rw [flatten_map_flatten, List.map_map]
  congr 1
  refine List.map_congr_left ?_
  intro depId _
  simp only [Function.comp]
  rw [List.map_map]
  refine congrArg List.flatten ?_
  refine List.map_congr_left ?_
  intro reference _
  simp only [Function.comp]
  show ["-change", reference, _] = ["-change", reference, _]
  rw [newRef_cases]

/-- C8 (counterexample): in a run whose root binary itself resolves to a
reserved system location, the root node — a node whose canonical path is
classified as a system library — is added to the resolved set and an
invocation for it is handed to the patch primitive, refuting the claim that
no system node is ever resolved or patched. -/
theorem collect_no_system_counterexample :
    collect wSysRoot 2 rootSysRoot = some stSysRoot ∧
    0 ∈ stSysRoot.resolved ∧
    wSysRoot.sys (pathAt stSysRoot.arena 0) = true ∧
    (patchRun wSysRoot stSysRoot.arena 0 "/d" "/d" 5 false
      (fun _ => (0, ""))).invocations
      = [patchArgsFor wSysRoot stSysRoot.arena 0 "/d" "/d" 0] := by
  exact ⟨rfl, by decide, by decide, rfl⟩

/-- C8 (amended): provided the root itself is not classified as a system
library, no system node ever enters the resolved set — and since every node
ever queued for a frontier is moved into `all_resolved` once `collect`
returns, none is ever queued either — no system node appears among any
node's outgoing edges, and every item handed to the patch primitive (the
root plus `get_dependencies`) is non-system. -/
theorem collect_no_system_nodes
    (w : World) (root : Node) (fuel : Nat) (st : CState)
    (hroot : w.sys root.path = false)
    (h : collect w fuel root = some st) :
    (∀ i ∈ st.resolved, w.sys (pathAt st.arena i) = false) ∧
    (∀ i, ∀ e ∈ getDirectDependencies w st.arena i,
      w.sys (pathAt st.arena e) = false) ∧
    (∀ gfuel, ∀ i ∈ (0 :: getDependencies w st.arena gfuel 0),
      w.sys (pathAt st.arena i) = false) := by
  obtain ⟨hinv, hstk⟩ := collect_inv h
  have hids : idsOf st = st.resolved := by rw [idsOf, hstk]; simp
  refine ⟨?_, ?_, ?_⟩
  · intro i hi
    exact hinv.nonsys hroot i (by rw [hids]; exact hi)
  · intro i e he
    exact getDirectDependencies_nonsys w st.arena i e he
  · intro gfuel i hi
    rcases List.mem_cons.mp hi with rfl | hmem
    · rw [hinv.rootMem.2]; exact hroot
    · exact getDependencies_nonsys w st.arena gfuel 0 i hmem

/-- Witness for the amended C8 at scenario 1, whose root `/d/app` is not a
system path. -/
theorem collect_no_system_nodes_witness :
    (∀ i ∈ stScn1.resolved, wScn1.sys (pathAt stScn1.arena i) = false) ∧
    (∀ i, ∀ e ∈ getDirectDependencies wScn1 stScn1.arena i,
      wScn1.sys (pathAt stScn1.arena e) = false) ∧
    (∀ gfuel, ∀ i ∈ (0 :: getDependencies wScn1 stScn1.arena gfuel 0),
      wScn1.sys (pathAt stScn1.arena i) = false) :=
  collect_no_system_nodes wScn1 rootScn1 3 stScn1 (by decide) rfl

/-- C6 (counterexample): in end-to-end scenario 1 the invocation built for
the root binary carries a `-id` directive — `install_name_tool` is asked to
set the root's self-identifier to `@loader_path/app` — so patching does not
leave the root's load-command self-identifier untouched. -/
theorem scenario1_counterexample :
    collect wScn1 3 rootScn1 = some stScn1 ∧
    "-id" ∈ patchArgsFor wScn1 stScn1.arena 0 "/d/../libs" "@loader_path/../libs" 0 := by
  exact ⟨rfl, by decide⟩

/-- C6 (amended): in scenario 1 the root's invocation sets the self-identifier
to `@loader_path/app`, rewrites the reference to `libfoo.dylib` to the
loader-relative destination path `@loader_path/../libs/libfoo.dylib`, and
leaves the system library reference untouched (no directive mentions it);
the closed dependency set is exactly the one `libfoo.dylib` node. -/
theorem scenario1_amended :
    collect wScn1 3 rootScn1 = some stScn1 ∧
    get_dest_and_loader_path "/d/app" "../libs" =
      ("/d/../libs", "@loader_path/../libs") ∧
    getDependencies wScn1 stScn1.arena 10 0 = [1] ∧
    pathAt stScn1.arena 1 = "/d/libfoo.dylib" ∧
    patchArgsFor wScn1 stScn1.arena 0 "/d/../libs" "@loader_path/../libs" 0 =
      ["install_name_tool", "/d/app", "-id", "@loader_path/app",
       "-change", "libfoo.dylib", "@loader_path/../libs/libfoo.dylib"] ∧
    "/usr/lib/libSystem.B.dylib" ∉
      patchArgsFor wScn1 stScn1.arena 0 "/d/../libs" "@loader_path/../libs" 0 := by
  refine ⟨rfl, by decide, rfl, rfl, rfl, by decide⟩

/-- Witness for C4: in `wAcc`, `/r` references `/c` as `r1` and `/y`
references it as `r2`. -/
theorem collect_reference_accumulation_witness :
    ∃ j, j ∈ stAcc.resolved ∧ pathAt stAcc.arena j = "/c" ∧
      (∀ j', j' ∈ stAcc.resolved → pathAt stAcc.arena j' = "/c" → j' = j) ∧
      "r1" ∈ (getNode stAcc.arena j).referred_as ∧
      "r2" ∈ (getNode stAcc.arena j).referred_as ∧
      ((getNode stAcc.arena j).referred_as).Nodup ∧
      ∀ itemId rootId rlp, j ∈ getDirectDependencies wAcc stAcc.arena itemId →
        ∀ r ∈ (getNode stAcc.arena j).referred_as,
          ∃ nr, (r, nr) ∈ changeTriples wAcc stAcc.arena rootId rlp itemId :=
  collect_reference_accumulation wAcc rootAcc 3 stAcc (by decide) rfl
    0 2 "r1" "r2" "/c" (by decide) (by decide) (by decide) (by decide) (by decide)

/-- The invocation list `patch` hands to the subprocess: one per item, root
first. -/
theorem patchRun_invocations (w : World) (a : List Node) (rootId : Nat)
    (destPath rootLoaderPath : String) (gfuel : Nat) (verbose : Bool)
    (prim : List String → Int × String) :
    (patchRun w a rootId destPath rootLoaderPath gfuel verbose prim).invocations =
      (rootId :: getDependencies w a gfuel rootId).map
        (patchArgsFor w a rootId destPath rootLoaderPath) := rfl

/-- `PatchError` is raised exactly when some invocation returned non-zero. -/
theorem patchRun_errored_iff (w : World) (a : List Node) (rootId : Nat)
    (destPath rootLoaderPath : String) (gfuel : Nat) (verbose : Bool)
    (prim : List String → Int × String) :
    (patchRun w a rootId destPath rootLoaderPath gfuel verbose prim).errored = true ↔
      ∃ inv ∈ (patchRun w a rootId destPath rootLoaderPath gfuel verbose prim).invocations,
        (prim inv).1 ≠ 0 := by
  rw [patchRun_invocations]
  rw [show (patchRun w a rootId destPath rootLoaderPath gfuel verbose prim).errored =
    (((rootId :: getDependencies w a gfuel rootId).map
      (patchArgsFor w a rootId destPath rootLoaderPath)).map prim).any
        (fun r => decide (r.1 ≠ 0)) from rfl]
  rw [List.any_eq_true]
  constructor
  · rintro ⟨r, hr, hrp⟩
    obtain ⟨inv, hinv, rfl⟩ := List.mem_map.mp hr
    exact ⟨inv, hinv, by simpa using hrp⟩
  · rintro ⟨inv, hinv, hne⟩
    exact ⟨prim inv, List.mem_map.mpr ⟨inv, hinv, rfl⟩, by simpa using hne⟩

/-- Every item whose invocation failed gets its `Error patching …` line. -/
theorem patchRun_errLine_mem (w : World) (a : List Node) (rootId : Nat)
    (destPath rootLoaderPath : String) (gfuel : Nat) (verbose : Bool)
    (prim : List String → Int × String) (i : Nat)
    (hi : i ∈ rootId :: getDependencies w a gfuel rootId)
    (hfail : (prim (patchArgsFor w a rootId destPath rootLoaderPath i)).1 ≠ 0) :
    ("Error patching " ++ basename (pathAt a i)) ∈
      (patchRun w a rootId destPath rootLoaderPath gfuel verbose prim).errLines := by
  have hz : (i, prim (patchArgsFor w a rootId destPath rootLoaderPath i)) ∈
      (rootId :: getDependencies w a gfuel rootId).zip
        (((rootId :: getDependencies w a gfuel rootId).map
          (patchArgsFor w a rootId destPath rootLoaderPath)).map prim) := by
    rw [List.map_map]
    exact mem_zip_map _ _ i hi
  rw [show (patchRun w a rootId destPath rootLoaderPath gfuel verbose prim).errLines =
    (((rootId :: getDependencies w a gfuel rootId).zip
      (((rootId :: getDependencies w a gfuel rootId).map
        (patchArgsFor w a rootId destPath rootLoaderPath)).map prim)).map (fun pr =>
      if pr.2.1 ≠ 0 then
        ("Error patching " ++ basename (pathAt a pr.1)) ::
          (if verbose then [pr.2.2] else [])
      else [])).flatten from rfl]
  refine List.mem_flatten.mpr ⟨_, List.mem_map.mpr ⟨_, hz, rfl⟩, ?_⟩
  rw [if_pos hfail]
  exact List.mem_cons_self _ _

/-- C5: in a non-dry run, the executor hands the Patch Primitive one
invocation for every item of the closed set (root first) — a failure never
removes later invocations from this list; when any invocation returns
non-zero the process exits 1 and the aggregate failure report on stderr names
every failed item; when all return zero the process exits 0. -/
theorem patch_aggregate_failure
    (w : World) (fuel gfuel : Nat) (fileArg rootPath destArg : String)
    (verbose : Bool) (prim : List String → Int × String) (res : MainResult)
    (h : mainRun w fuel gfuel true fileArg rootPath destArg verbose false prim
      = some res) :
    ∃ st : CState, collect w fuel (mkDependency fileArg rootPath) = some st ∧
      res.invocations = (0 :: getDependencies w st.arena gfuel 0).map
        (patchArgsFor w st.arena 0 (get_dest_and_loader_path rootPath destArg).1
          (get_dest_and_loader_path rootPath destArg).2) ∧
      ((∃ inv ∈ res.invocations, (prim inv).1 ≠ 0) →
        res.exitCode = 1 ∧
        ∀ i ∈ (0 :: getDependencies w st.arena gfuel 0),
          (prim (patchArgsFor w st.arena 0 (get_dest_and_loader_path rootPath destArg).1
            (get_dest_and_loader_path rootPath destArg).2 i)).1 ≠ 0 →
          ("Error patching " ++ basename (pathAt st.arena i)) ∈ res.stderrLines) ∧
      ((∀ inv ∈ res.invocations, (prim inv).1 = 0) → res.exitCode = 0) := by
  cases hc : collectOutput w fuel (mkDependency fileArg rootPath) verbose with
  | none =>
    have hm : mainRun w fuel gfuel true fileArg rootPath destArg verbose false prim
        = none := by simp [mainRun, hc]
    rw [hm] at h; cases h
  | some pr =>
    obtain ⟨st, warn⟩ := pr
    have hcol : collect w fuel (mkDependency fileArg rootPath) = some st := by
      rw [collectOutput] at hc
      cases hcl : collect w fuel (mkDependency fileArg rootPath) with
      | none => rw [hcl] at hc; cases hc
      | some st2 => rw [hcl] at hc; cases hc; rfl
    cases hp : prepatchOutput w st.arena gfuel 0 fileArg verbose with
    | none =>
      have hm : mainRun w fuel gfuel true fileArg rootPath destArg verbose false prim
          = none := by simp [mainRun, hc, hp]
      rw [hm] at h; cases h
    | some pre =>
      refine ⟨st, hcol, ?_⟩
      by_cases herr : (patchRun w st.arena 0 (get_dest_and_loader_path rootPath destArg).1
          (get_dest_and_loader_path rootPath destArg).2 gfuel verbose prim).errored = true
      · have hm : mainRun w fuel gfuel true fileArg rootPath destArg verbose false prim
            = some ⟨1, pre,
                warn ++ (patchRun w st.arena 0 (get_dest_and_loader_path rootPath destArg).1
                    (get_dest_and_loader_path rootPath destArg).2 gfuel verbose prim).errLines ++
                  (if verbose then [] else ["Run with -v for more information"]),
                (patchRun w st.arena 0 (get_dest_and_loader_path rootPath destArg).1
                  (get_dest_and_loader_path rootPath destArg).2 gfuel verbose prim).copies,
                (patchRun w st.arena 0 (get_dest_and_loader_path rootPath destArg).1
                  (get_dest_and_loader_path rootPath destArg).2 gfuel verbose prim).invocations,
                (patchRun w st.arena 0 (get_dest_and_loader_path rootPath destArg).1
                  (get_dest_and_loader_path rootPath destArg).2 gfuel verbose prim).mkdirs⟩ := by
          simp [mainRun, hc, hp, herr]
        rw [hm] at h
        cases h
        refine ⟨patchRun_invocations w st.arena 0 _ _ gfuel verbose prim, ?_, ?_⟩
        · intro _
          refine ⟨rfl, ?_⟩
          intro i hi hfail
          refine List.mem_append.mpr (Or.inl (List.mem_append.mpr (Or.inr ?_)))
          exact patchRun_errLine_mem w st.arena 0 _ _ gfuel verbose prim i hi hfail
        · intro hall
          exfalso
          obtain ⟨inv, hinv, hne⟩ := (patchRun_errored_iff w st.arena 0
            (get_dest_and_loader_path rootPath destArg).1
            (get_dest_and_loader_path rootPath destArg).2 gfuel verbose prim).mp herr
          exact hne (hall inv hinv)
      · have hm : mainRun w fuel gfuel true fileArg rootPath destArg verbose false prim
            = some ⟨0, pre ++ ["",
                basename fileArg ++ " + " ++
                  toString (getDependencies w st.arena gfuel 0).length ++ " dependenc" ++
                  (if (getDependencies w st.arena gfuel 0).length = 1 then "y" else "ies") ++
                  " successfully patched"],
                warn,
                (patchRun w st.arena 0 (get_dest_and_loader_path rootPath destArg).1
                  (get_dest_and_loader_path rootPath destArg).2 gfuel verbose prim).copies,
                (patchRun w st.arena 0 (get_dest_and_loader_path rootPath destArg).1
                  (get_dest_and_loader_path rootPath destArg).2 gfuel verbose prim).invocations,
                (patchRun w st.arena 0 (get_dest_and_loader_path rootPath destArg).1
                  (get_dest_and_loader_path rootPath destArg).2 gfuel verbose prim).mkdirs⟩ := by
          simp [mainRun, hc, hp, herr]
        rw [hm] at h
        cases h
        refine ⟨patchRun_invocations w st.arena 0 _ _ gfuel verbose prim, ?_, ?_⟩
        · intro hex
          exfalso
          exact herr ((patchRun_errored_iff w st.arena 0
            (get_dest_and_loader_path rootPath destArg).1
            (get_dest_and_loader_path rootPath destArg).2 gfuel verbose prim).mpr hex)
        · intro _
          rfl

set_option maxRecDepth 10000 in
/-- Witness for C5: all hypotheses discharged on the `wAcc` run with the
subprocess stub `primFailC` that fails on `/libs/c`. -/
theorem patch_aggregate_failure_witness :
    ∃ st : CState, collect wAcc 3 (mkDependency "r" "/r") = some st ∧
      ((mainRun wAcc 3 10 true "r" "/r" "/libs" false false primFailC).getD
          default).invocations =
        (0 :: getDependencies wAcc st.arena 10 0).map
          (patchArgsFor wAcc st.arena 0 (get_dest_and_loader_path "/r" "/libs").1
            (get_dest_and_loader_path "/r" "/libs").2) ∧
      ((∃ inv ∈ ((mainRun wAcc 3 10 true "r" "/r" "/libs" false false primFailC).getD
            default).invocations, (primFailC inv).1 ≠ 0) →
        ((mainRun wAcc 3 10 true "r" "/r" "/libs" false false primFailC).getD
            default).exitCode = 1 ∧
        ∀ i ∈ (0 :: getDependencies wAcc st.arena 10 0),
          (primFailC (patchArgsFor wAcc st.arena 0
            (get_dest_and_loader_path "/r" "/libs").1
            (get_dest_and_loader_path "/r" "/libs").2 i)).1 ≠ 0 →
          ("Error patching " ++ basename (pathAt st.arena i)) ∈
            ((mainRun wAcc 3 10 true "r" "/r" "/libs" false false primFailC).getD
              default).stderrLines) ∧
      ((∀ inv ∈ ((mainRun wAcc 3 10 true "r" "/r" "/libs" false false primFailC).getD
          default).invocations, (primFailC inv).1 = 0) →
        ((mainRun wAcc 3 10 true "r" "/r" "/libs" false false primFailC).getD
          default).exitCode = 0) :=
  patch_aggregate_failure wAcc 3 10 "r" "/r" "/libs" false primFailC
    ((mainRun wAcc 3 10 true "r" "/r" "/libs" false false primFailC).getD default) rfl

/-- C9: with `--dry-run` set and the input file present, `main` performs
discovery and prints the `Patching …` header with the dependency count and
listing, then exits 0 having requested no file copies, no subprocess
invocations and no directory creations — the whole patch phase is skipped. -/
theorem dry_run_no_effects
    (w : World) (fuel gfuel : Nat) (fileArg rootPath destArg : String)
    (verbose : Bool) (prim : List String → Int × String)
    (st : CState) (warn pre : List String)
    (hc : collectOutput w fuel (mkDependency fileArg rootPath) verbose
      = some (st, warn))
    (hp : prepatchOutput w st.arena gfuel 0 fileArg verbose = some pre) :
    mainRun w fuel gfuel true fileArg rootPath destArg verbose true prim =
      some ⟨0, pre, warn, [], [], []⟩ ∧
    countLine (getDependencies w st.arena gfuel 0).length ∈ pre := by
  constructor
  · simp [mainRun, hc, hp]
  · rw [prepatchOutput] at hp
    by_cases hv : verbose = true
    · rw [if_pos hv] at hp
      have hpre : pre
          = ("Patching " ++ fileArg) :: printDepsVerbose w st.arena gfuel 0 :=
        (Option.some.inj hp).symm
      rw [hpre, printDepsVerbose]
      exact List.mem_cons_of_mem _ (List.mem_cons_self _ _)
    · rw [if_neg hv] at hp
      rw [printDepsMinimal] at hp
      cases hm : minimalLines w st.arena (getDependencies w st.arena gfuel 0) 0
          (getDependencies w st.arena gfuel 0) with
      | none => rw [hm] at hp; cases hp
      | some ls =>
        rw [hm] at hp
        have hpre : pre = ("Patching " ++ fileArg) ::
            countLine (getDependencies w st.arena gfuel 0).length :: ls :=
          (Option.some.inj hp).symm
        rw [hpre]
        exact List.mem_cons_of_mem _ (List.mem_cons_self _ _)

set_option maxRecDepth 10000 in
/-- Witness for C9: the scenario-1 run in dry-run mode. -/
theorem dry_run_no_effects_witness :
    mainRun wScn1 3 10 true "app" "/d/app" "../libs" false true (fun _ => (0, "")) =
      some ⟨0, (prepatchOutput wScn1 stScn1.arena 10 0 "app" false).getD [],
        [], [], [], []⟩ ∧
    countLine (getDependencies wScn1 stScn1.arena 10 0).length ∈
      (prepatchOutput wScn1 stScn1.arena 10 0 "app" false).getD [] :=
  dry_run_no_effects wScn1 3 10 "app" "/d/app" "../libs" false (fun _ => (0, ""))
    stScn1 [] ((prepatchOutput wScn1 stScn1.arena 10 0 "app" false).getD []) rfl rfl

/-- C10: an absolute destination argument is returned unchanged as both the
destination and the root loader path, so every root edge onto a bundled
dependency is rewritten to an absolute path under the destination (itself an
absolute path, not a loader-relative one); only a relative destination is
resolved against the root binary's parent directory, with the loader path
formed as `@loader_path` joined with the relative path from that directory to
the destination. -/
theorem get_dest_and_loader_path_spec (rootDepPath destArg : String) :
    (isAbsolute destArg = true →
      get_dest_and_loader_path rootDepPath destArg = (destArg, destArg) ∧
      ∀ depPath itemPath, depPath ≠ rootDepPath → itemPath = rootDepPath →
        plannedNewRef rootDepPath (get_dest_and_loader_path rootDepPath destArg).2
            itemPath depPath = pjoin destArg (basename depPath) ∧
          isAbsolute (pjoin destArg (basename depPath)) = true) ∧
    (isAbsolute destArg = false →
      get_dest_and_loader_path rootDepPath destArg =
        (pjoin (parentPath rootDepPath) destArg,
          pjoin "@loader_path"
            (relpath (pjoin (parentPath rootDepPath) destArg)
              (parentPath rootDepPath))) ∧
      ∃ r, (get_dest_and_loader_path rootDepPath destArg).2
        = pjoin "@loader_path" r) := by
  constructor
  · intro habs
    have heq : get_dest_and_loader_path rootDepPath destArg = (destArg, destArg) := by
      rw [get_dest_and_loader_path, if_pos habs]
    refine ⟨heq, ?_⟩
    intro depPath itemPath hdep hitem
    constructor
    · rw [heq, plannedNewRef, if_neg hdep, if_pos hitem]
    · exact isAbsolute_pjoin _ _ habs
  · intro habs
    have heq : get_dest_and_loader_path rootDepPath destArg =
        (pjoin (parentPath rootDepPath) destArg,
          pjoin "@loader_path"
            (relpath (pjoin (parentPath rootDepPath) destArg)
              (parentPath rootDepPath))) := by
      rw [get_dest_and_loader_path, if_neg (by simp [habs])]
    exact ⟨heq, ⟨_, by rw [heq]⟩⟩

/-- Witness for C10: both branches at concrete inputs — the absolute
destination `/opt/libs` passes through unchanged and yields absolute rewrites
for root edges, the relative destination `../libs` resolves against `/d` and
yields a loader-relative root loader path. -/
theorem get_dest_and_loader_path_spec_witness :
    get_dest_and_loader_path "/d/app" "/opt/libs" = ("/opt/libs", "/opt/libs") ∧
    plannedNewRef "/d/app" (get_dest_and_loader_path "/d/app" "/opt/libs").2
      "/d/app" "/d/libfoo.dylib" = pjoin "/opt/libs" (basename "/d/libfoo.dylib") ∧
    isAbsolute (pjoin "/opt/libs" (basename "/d/libfoo.dylib")) = true ∧
    get_dest_and_loader_path "/d/app" "../libs" =
      ("/d/../libs", "@loader_path/../libs") :=
  ⟨((get_dest_and_loader_path_spec "/d/app" "/opt/libs").1 (by decide)).1,
   (((get_dest_and_loader_path_spec "/d/app" "/opt/libs").1 (by decide)).2
      "/d/libfoo.dylib" "/d/app" (by decide) rfl).1,
   (((get_dest_and_loader_path_spec "/d/app" "/opt/libs").1 (by decide)).2
      "/d/libfoo.dylib" "/d/app" (by decide) rfl).2,
   by rw [((get_dest_and_loader_path_spec "/d/app" "../libs").2 (by decide)).1]; rfl⟩

/-! Worlds that agree on `deps` and `sys` — differing only in which reference
paths are unresolvable — produce the same run apart from `failed_paths` and
the warnings derived from it.  The lemmas below walk that frame property
through every layer of the embedding. -/

theorem processDeps_ext (d : String → List (String × String))
    (fx fy : String → List String) (s : String → Bool) (R : List Nat)
    (itemId : Nat) : ∀ (ds : List Nat) (st : List Node × List Nat),
    processDeps ⟨d, fx, s⟩ R itemId st ds
      = processDeps ⟨d, fy, s⟩ R itemId st ds := by
  intro ds
  induction ds with
  | nil => intro st; rfl
  | cons x xs ih =>
    intro st
    simp only [processDeps]
    rw [show processDep ⟨d, fx, s⟩ R itemId st x
      = processDep ⟨d, fy, s⟩ R itemId st x from rfl]
    exact ih _

theorem processItems_ext (d : String → List (String × String))
    (fx fy : String → List String) (s : String → Bool) (R : List Nat) :
    ∀ (ps : List (Nat × List Nat)) (st : List Node × List Nat),
    processItems ⟨d, fx, s⟩ R st ps = processItems ⟨d, fy, s⟩ R st ps := by
  intro ps
  induction ps with
  | nil => intro st; rfl
  | cons p pps ih =>
    intro st
    simp only [processItems]
    rw [processDeps_ext d fx fy s R p.1 p.2 st]
    exact ih _

theorem gatherFind_ext (d : String → List (String × String))
    (fx fy : String → List String) (s : String → Bool) :
    ∀ (items : List Nat) (a : List Node),
    (gatherFind ⟨d, fx, s⟩ a items).1 = (gatherFind ⟨d, fy, s⟩ a items).1 ∧
    (gatherFind ⟨d, fx, s⟩ a items).2.1 = (gatherFind ⟨d, fy, s⟩ a items).2.1 := by
  intro items
  induction items with
  | nil => intro a; exact ⟨rfl, rfl⟩
  | cons id rest ih =>
    intro a
    simp only [gatherFind]
    exact ⟨(ih _).1, congrArg (List.cons _) ((ih _).2)⟩

theorem collectStep_ext (d : String → List (String × String))
    (fx fy : String → List String) (s : String → Bool)
    (s1 s2 : CState) (hes : eraseFailed s1 = eraseFailed s2)
    (current : List Nat) :
    eraseFailed (collectStep ⟨d, fx, s⟩ s1 current)
      = eraseFailed (collectStep ⟨d, fy, s⟩ s2 current) := by
  obtain ⟨a1, r1, k1, fl1⟩ := s1
  obtain ⟨a2, r2, k2, fl2⟩ := s2
  rw [eraseFailed, eraseFailed] at hes
  simp only [Prod.mk.injEq] at hes
  obtain ⟨ha, hr, hk⟩ := hes
  subst ha; subst hr; subst hk
  simp only [collectStep, eraseFailed]
  obtain ⟨hg1, hg2⟩ := gatherFind_ext d fx fy s current a1
  rw [hg1, hg2, processItems_ext d fx fy s]

theorem collectLoop_ext (d : String → List (String × String))
    (fx fy : String → List String) (s : String → Bool) :
    ∀ (fuel : Nat) (s1 s2 : CState), eraseFailed s1 = eraseFailed s2 →
    Option.map eraseFailed (collectLoop ⟨d, fx, s⟩ fuel s1)
      = Option.map eraseFailed (collectLoop ⟨d, fy, s⟩ fuel s2) := by
  intro fuel
  induction fuel with
  | zero =>
    intro s1 s2 hes
    have hk : s1.stack = s2.stack := congrArg (fun t => t.2.2) hes
    show Option.map eraseFailed (if s1.stack.isEmpty then some s1 else none)
      = Option.map eraseFailed (if s2.stack.isEmpty then some s2 else none)
    rw [hk]
    by_cases he : s2.stack.isEmpty = true
    · rw [if_pos he, if_pos he]
      show some (eraseFailed s1) = some (eraseFailed s2)
      rw [hes]
    · rw [if_neg he, if_neg he]
  | succ fuel ih =>
    intro s1 s2 hes
    have hk : s1.stack = s2.stack := congrArg (fun t => t.2.2) hes
    cases hg : s2.stack.getLast? with
    | none =>
      have hg1 : s1.stack.getLast? = none := by rw [hk, hg]
      rw [show collectLoop ⟨d, fx, s⟩ (fuel + 1) s1 = some s1 from by
            rw [collectLoop, hg1],
          show collectLoop ⟨d, fy, s⟩ (fuel + 1) s2 = some s2 from by
            rw [collectLoop, hg]]
      show some (eraseFailed s1) = some (eraseFailed s2)
      rw [hes]
    | some current =>
      have hg1 : s1.stack.getLast? = some current := by rw [hk, hg]
      rw [show collectLoop ⟨d, fx, s⟩ (fuel + 1) s1
            = collectLoop ⟨d, fx, s⟩ fuel (collectStep ⟨d, fx, s⟩ s1 current) from by
            rw [collectLoop, hg1],
          show collectLoop ⟨d, fy, s⟩ (fuel + 1) s2
            = collectLoop ⟨d, fy, s⟩ fuel (collectStep ⟨d, fy, s⟩ s2 current) from by
            rw [collectLoop, hg]]
      exact ih _ _ (collectStep_ext d fx fy s s1 s2 hes current)

theorem collect_ext (w w' : World) (hdeps : w.deps = w'.deps)
    (hsys : w.sys = w'.sys) (fuel : Nat) (root : Node) :
    Option.map eraseFailed (collect w fuel root)
      = Option.map eraseFailed (collect w' fuel root) := by
  obtain ⟨d, fx, s⟩ := w
  obtain ⟨d2, fy, s2⟩ := w'
  have hd : d = d2 := hdeps
  have hs : s = s2 := hsys
  subst hd; subst hs
  exact collectLoop_ext d fx fy s fuel
    ⟨[⟨root.path, root.referred_as, []⟩], [], [[0]], []⟩
    ⟨[⟨root.path, root.referred_as, []⟩], [], [[0]], []⟩ rfl

theorem getDepsAux_ext (d : String → List (String × String))
    (fx fy : String → List String) (s : String → Bool) (a : List Node)
    (rootPath : String) : ∀ (fuel : Nat) (acc queue : List Nat),
    getDepsAux ⟨d, fx, s⟩ a rootPath fuel acc queue
      = getDepsAux ⟨d, fy, s⟩ a rootPath fuel acc queue := by
  intro fuel
  induction fuel with
  | zero => intro acc queue; rfl
  | succ fuel ih =>
    intro acc queue
    cases queue with
    | nil => rfl
    | cons q qs =>
      simp only [getDepsAux]
      by_cases hcnd : pathAt a q = rootPath ∨ pathAt a q ∈ pathsAt a acc
      · rw [if_pos hcnd, if_pos hcnd]
        exact ih acc qs
      · rw [if_neg hcnd, if_neg hcnd]
        exact ih _ _

theorem getDependencies_ext (d : String → List (String × String))
    (fx fy : String → List String) (s : String → Bool) (a : List Node)
    (gfuel rootId : Nat) :
    getDependencies ⟨d, fx, s⟩ a gfuel rootId
      = getDependencies ⟨d, fy, s⟩ a gfuel rootId :=
  getDepsAux_ext d fx fy s a (pathAt a rootId) gfuel []
    (getDirectDependencies ⟨d, fx, s⟩ a rootId)

theorem minimalLines_ext (d : String → List (String × String))
    (fx fy : String → List String) (s : String → Bool) (a : List Node)
    (deps : List Nat) : ∀ (l : List Nat) (i : Nat),
    minimalLines ⟨d, fx, s⟩ a deps i l = minimalLines ⟨d, fy, s⟩ a deps i l := by
  intro l
  induction l with
  | nil => intro i; rfl
  | cons dp rest ih =>
    intro i
    simp only [minimalLines]
    rw [ih (i + 1),
        show getDirectDependencies ⟨d, fx, s⟩ a dp
          = getDirectDependencies ⟨d, fy, s⟩ a dp from rfl]

theorem printDepsMinimal_ext (d : String → List (String × String))
    (fx fy : String → List String) (s : String → Bool) (a : List Node)
    (gfuel rootId : Nat) :
    printDepsMinimal ⟨d, fx, s⟩ a gfuel rootId
      = printDepsMinimal ⟨d, fy, s⟩ a gfuel rootId := by
  simp only [printDepsMinimal]
  rw [getDependencies_ext d fx fy s a gfuel rootId,
      minimalLines_ext d fx fy s a (getDependencies ⟨d, fy, s⟩ a gfuel rootId)
        (getDependencies ⟨d, fy, s⟩ a gfuel rootId) 0]

theorem printDepsVerbose_ext (d : String → List (String × String))
    (fx fy : String → List String) (s : String → Bool) (a : List Node)
    (gfuel rootId : Nat) :
    printDepsVerbose ⟨d, fx, s⟩ a gfuel rootId
      = printDepsVerbose ⟨d, fy, s⟩ a gfuel rootId := by
  simp only [printDepsVerbose]
  rw [getDependencies_ext d fx fy s a gfuel rootId]
  congr 1
  congr 1
  refine List.map_congr_left ?_
  intro dp _
  rw [getDependencies_ext d fx fy s a gfuel dp]

theorem prepatchOutput_ext (d : String → List (String × String))
    (fx fy : String → List String) (s : String → Bool) (a : List Node)
    (gfuel rootId : Nat) (fileArg : String) (verbose : Bool) :
    prepatchOutput ⟨d, fx, s⟩ a gfuel rootId fileArg verbose
      = prepatchOutput ⟨d, fy, s⟩ a gfuel rootId fileArg verbose := by
  rw [prepatchOutput, prepatchOutput]
  by_cases hv : verbose = true
  · rw [if_pos hv, if_pos hv, printDepsVerbose_ext d fx fy s a gfuel rootId]
  · rw [if_neg hv, if_neg hv, printDepsMinimal_ext d fx fy s a gfuel rootId]

theorem patchRun_ext (d : String → List (String × String))
    (fx fy : String → List String) (s : String → Bool) (a : List Node)
    (rootId : Nat) (destPath rootLoaderPath : String) (gfuel : Nat)
    (verbose : Bool) (prim : List String → Int × String) :
    patchRun ⟨d, fx, s⟩ a rootId destPath rootLoaderPath gfuel verbose prim
      = patchRun ⟨d, fy, s⟩ a rootId destPath rootLoaderPath gfuel verbose prim := by
  simp only [patchRun]
  rw [getDependencies_ext d fx fy s a gfuel rootId,
      show patchArgsFor ⟨d, fx, s⟩ a rootId destPath rootLoaderPath
        = patchArgsFor ⟨d, fy, s⟩ a rootId destPath rootLoaderPath from
        funext (fun i => rfl)]

/-- C7 (counterexample): in a default (non-verbose) run with one unresolvable
reference, warnings are printed on stderr but the accumulated path itself is
not among them — the `Could not resolve …` line per failed path appears only
with `-v`; the terse run prints a pointer to `-v` instead. -/
theorem unresolved_warning_counterexample :
    collectOutput wFail 3 rootFail false = some (stFail, warnFail) ∧
    stFail.failed = ["@rpath/libB.dylib"] ∧
    "Could not resolve @rpath/libB.dylib" ∉ warnFail ∧
    warnFail ≠ [] := by
  refine ⟨rfl, rfl, by decide, by decide⟩

/-- C7 (amended): unresolvable references are accumulated and non-fatal.  For
two worlds agreeing on resolvable references and system classification —
differing only in which paths fail to resolve — (1) `collect` returns the same
arena, resolved set and stack (only `failed_paths` may differ), so discovery
always runs to completion; (2) in a *verbose* run every accumulated path is
surfaced as a `Could not resolve …` stderr line; (3) a full non-dry run
produces the same invocations, copies, directory creations, exit code and
stdout — unresolvable references never prevent patching of the rest of the
graph. -/
theorem unresolved_nonfatal
    (w w' : World) (hdeps : w.deps = w'.deps) (hsys : w.sys = w'.sys) :
    (∀ fuel root, Option.map eraseFailed (collect w fuel root)
      = Option.map eraseFailed (collect w' fuel root)) ∧
    (∀ fuel root st lines,
      collectOutput w fuel root true = some (st, lines) →
      ∀ p ∈ st.failed, ("Could not resolve " ++ p) ∈ lines) ∧
    (∀ fuel gfuel fileArg rootPath destArg verbose prim res,
      mainRun w fuel gfuel true fileArg rootPath destArg verbose false prim
        = some res →
      ∃ res', mainRun w' fuel gfuel true fileArg rootPath destArg verbose false prim
          = some res' ∧
        res'.invocations = res.invocations ∧ res'.copies = res.copies ∧
        res'.mkdirs = res.mkdirs ∧ res'.exitCode = res.exitCode ∧
        res'.stdoutLines = res.stdoutLines) := by
  obtain ⟨d, fx, s⟩ := w
  obtain ⟨d2, fy, s2⟩ := w'
  have hd : d = d2 := hdeps
  have hs : s = s2 := hsys
  subst hd; subst hs
  refine ⟨?_, ?_, ?_⟩
  · intro fuel root
    exact collect_ext ⟨d, fx, s⟩ ⟨d, fy, s⟩ rfl rfl fuel root
  · intro fuel root st lines hco p hp
    rw [collectOutput] at hco
    cases hcl : collect ⟨d, fx, s⟩ fuel root with
    | none => rw [hcl] at hco; cases hco
    | some st2 =>
      rw [hcl] at hco
      cases hco
      rw [collectWarnLines,
          if_neg (fun hemp => List.not_mem_nil p ((List.isEmpty_iff.mp hemp) ▸ hp))]
      refine List.mem_append.mpr (Or.inr ?_)
      exact List.mem_map.mpr ⟨p, hp, rfl⟩
  · intro fuel gfuel fileArg rootPath destArg verbose prim res h
    cases hc : collectOutput ⟨d, fx, s⟩ fuel (mkDependency fileArg rootPath) verbose with
    | none =>
      have hm : mainRun ⟨d, fx, s⟩ fuel gfuel true fileArg rootPath destArg verbose
          false prim = none := by simp [mainRun, hc]
      rw [hm] at h; cases h
    | some pr =>
      obtain ⟨st, warn⟩ := pr
      have hcol : collect ⟨d, fx, s⟩ fuel (mkDependency fileArg rootPath) = some st := by
        rw [collectOutput] at hc
        cases hcl : collect ⟨d, fx, s⟩ fuel (mkDependency fileArg rootPath) with
        | none => rw [hcl] at hc; cases hc
        | some st2 => rw [hcl] at hc; cases hc; rfl
      have hmap := collect_ext ⟨d, fx, s⟩ ⟨d, fy, s⟩ rfl rfl fuel
        (mkDependency fileArg rootPath)
      rw [hcol] at hmap
      cases hcol2 : collect ⟨d, fy, s⟩ fuel (mkDependency fileArg rootPath) with
      | none => rw [hcol2] at hmap; cases hmap
      | some st' =>
        rw [hcol2] at hmap
        simp only [Option.map_some'] at hmap
        have hes : eraseFailed st' = eraseFailed st := (Option.some.inj hmap).symm
        have harena : st'.arena = st.arena := congrArg (fun t => t.1) hes
        have hc2 : collectOutput ⟨d, fy, s⟩ fuel (mkDependency fileArg rootPath) verbose
            = some (st', collectWarnLines (basename (mkDependency fileArg rootPath).path)
                verbose st'.failed) := by
          rw [collectOutput, hcol2]
        cases hp : prepatchOutput ⟨d, fx, s⟩ st.arena gfuel 0 fileArg verbose with
        | none =>
          have hm : mainRun ⟨d, fx, s⟩ fuel gfuel true fileArg rootPath destArg verbose
              false prim = none := by simp [mainRun, hc, hp]
          rw [hm] at h; cases h
        | some pre =>
          have hp2 : prepatchOutput ⟨d, fy, s⟩ st'.arena gfuel 0 fileArg verbose
              = some pre := by
            rw [harena, ← prepatchOutput_ext d fx fy s st.arena gfuel 0 fileArg verbose]
            exact hp
          have hpr : patchRun ⟨d, fy, s⟩ st'.arena 0
              (get_dest_and_loader_path rootPath destArg).1
              (get_dest_and_loader_path rootPath destArg).2 gfuel verbose prim
              = patchRun ⟨d, fx, s⟩ st.arena 0
                (get_dest_and_loader_path rootPath destArg).1
                (get_dest_and_loader_path rootPath destArg).2 gfuel verbose prim := by
            rw [harena, ← patchRun_ext d fx fy s st.arena 0
              (get_dest_and_loader_path rootPath destArg).1
              (get_dest_and_loader_path rootPath destArg).2 gfuel verbose prim]
          have hlen : getDependencies ⟨d, fy, s⟩ st'.arena gfuel 0
              = getDependencies ⟨d, fx, s⟩ st.arena gfuel 0 := by
            rw [harena, ← getDependencies_ext d fx fy s st.arena gfuel 0]
          by_cases herr : (patchRun ⟨d, fx, s⟩ st.arena 0
              (get_dest_and_loader_path rootPath destArg).1
              (get_dest_and_loader_path rootPath destArg).2 gfuel verbose prim).errored
              = true
          · have hm : mainRun ⟨d, fx, s⟩ fuel gfuel true fileArg rootPath destArg verbose
                false prim = some ⟨1, pre,
                  warn ++ (patchRun ⟨d, fx, s⟩ st.arena 0
                      (get_dest_and_loader_path rootPath destArg).1
                      (get_dest_and_loader_path rootPath destArg).2 gfuel verbose
                      prim).errLines ++
                    (if verbose then [] else ["Run with -v for more information"]),
                  (patchRun ⟨d, fx, s⟩ st.arena 0
                    (get_dest_and_loader_path rootPath destArg).1
                    (get_dest_and_loader_path rootPath destArg).2 gfuel verbose
                    prim).copies,
                  (patchRun ⟨d, fx, s⟩ st.arena 0
                    (get_dest_and_loader_path rootPath destArg).1
                    (get_dest_and_loader_path rootPath destArg).2 gfuel verbose
                    prim).invocations,
                  (patchRun ⟨d, fx, s⟩ st.arena 0
                    (get_dest_and_loader_path rootPath destArg).1
                    (get_dest_and_loader_path rootPath destArg).2 gfuel verbose
                    prim).mkdirs⟩ := by
              simp [mainRun, hc, hp, herr]
            have hm2 : mainRun ⟨d, fy, s⟩ fuel gfuel true fileArg rootPath destArg verbose
                false prim = some ⟨1, pre,
                  collectWarnLines (basename (mkDependency fileArg rootPath).path)
                      verbose st'.failed ++
                    (patchRun ⟨d, fx, s⟩ st.arena 0
                      (get_dest_and_loader_path rootPath destArg).1
                      (get_dest_and_loader_path rootPath destArg).2 gfuel verbose
                      prim).errLines ++
                    (if verbose then [] else ["Run with -v for more information"]),
                  (patchRun ⟨d, fx, s⟩ st.arena 0
                    (get_dest_and_loader_path rootPath destArg).1
                    (get_dest_and_loader_path rootPath destArg).2 gfuel verbose
                    prim).copies,
                  (patchRun ⟨d, fx, s⟩ st.arena 0
                    (get_dest_and_loader_path rootPath destArg).1
                    (get_dest_and_loader_path rootPath destArg).2 gfuel verbose
                    prim).invocations,
                  (patchRun ⟨d, fx, s⟩ st.arena 0
                    (get_dest_and_loader_path rootPath destArg).1
                    (get_dest_and_loader_path rootPath destArg).2 gfuel verbose
                    prim).mkdirs⟩ := by
              simp [mainRun, hc2, hp2, hpr, herr]
            rw [hm] at h
            cases h
            exact ⟨_, hm2, rfl, rfl, rfl, rfl, rfl⟩
          · have hm : mainRun ⟨d, fx, s⟩ fuel gfuel true fileArg rootPath destArg verbose
                false prim = some ⟨0, pre ++ ["",
                    basename fileArg ++ " + " ++
                      toString (getDependencies ⟨d, fx, s⟩ st.arena gfuel 0).length ++
                      " dependenc" ++
                      (if (getDependencies ⟨d, fx, s⟩ st.arena gfuel 0).length = 1
                        then "y" else "ies") ++ " successfully patched"],
                  warn,
                  (patchRun ⟨d, fx, s⟩ st.arena 0
                    (get_dest_and_loader_path rootPath destArg).1
                    (get_dest_and_loader_path rootPath destArg).2 gfuel verbose
                    prim).copies,
                  (patchRun ⟨d, fx, s⟩ st.arena 0
                    (get_dest_and_loader_path rootPath destArg).1
                    (get_dest_and_loader_path rootPath destArg).2 gfuel verbose
                    prim).invocations,
                  (patchRun ⟨d, fx, s⟩ st.arena 0
                    (get_dest_and_loader_path rootPath destArg).1
                    (get_dest_and_loader_path rootPath destArg).2 gfuel verbose
                    prim).mkdirs⟩ := by
              simp [mainRun, hc, hp, herr]
            have hm2 : mainRun ⟨d, fy, s⟩ fuel gfuel true fileArg rootPath destArg verbose
                false prim = some ⟨0, pre ++ ["",
                    basename fileArg ++ " + " ++
                      toString (getDependencies ⟨d, fx, s⟩ st.arena gfuel 0).length ++
                      " dependenc" ++
                      (if (getDependencies ⟨d, fx, s⟩ st.arena gfuel 0).length = 1
                        then "y" else "ies") ++ " successfully patched"],
                  collectWarnLines (basename (mkDependency fileArg rootPath).path)
                    verbose st'.failed,
                  (patchRun ⟨d, fx, s⟩ st.arena 0
                    (get_dest_and_loader_path rootPath destArg).1
                    (get_dest_and_loader_path rootPath destArg).2 gfuel verbose
                    prim).copies,
                  (patchRun ⟨d, fx, s⟩ st.arena 0
                    (get_dest_and_loader_path rootPath destArg).1
                    (get_dest_and_loader_path rootPath destArg).2 gfuel verbose
                    prim).invocations,
                  (patchRun ⟨d, fx, s⟩ st.arena 0
                    (get_dest_and_loader_path rootPath destArg).1
                    (get_dest_and_loader_path rootPath destArg).2 gfuel verbose
                    prim).mkdirs⟩ := by
              simp [mainRun, hc2, hp2, hpr, hlen, herr]
            rw [hm] at h
            cases h
            exact ⟨_, hm2, rfl, rfl, rfl, rfl, rfl⟩

/-- Witness for the amended C7: `wFail` (one unresolvable reference at the
root) against `wFailNone` (none), which agree on `deps` and `sys`. -/
theorem unresolved_nonfatal_witness :
    (∀ fuel root, Option.map eraseFailed (collect wFail fuel root)
      = Option.map eraseFailed (collect wFailNone fuel root)) ∧
    (∀ fuel root st lines,
      collectOutput wFail fuel root true = some (st, lines) →
      ∀ p ∈ st.failed, ("Could not resolve " ++ p) ∈ lines) ∧
    (∀ fuel gfuel fileArg rootPath destArg verbose prim res,
      mainRun wFail fuel gfuel true fileArg rootPath destArg verbose false prim
        = some res →
      ∃ res', mainRun wFailNone fuel gfuel true fileArg rootPath destArg verbose
          false prim = some res' ∧
        res'.invocations = res.invocations ∧ res'.copies = res.copies ∧
        res'.mkdirs = res.mkdirs ∧ res'.exitCode = res.exitCode ∧
        res'.stdoutLines = res.stdoutLines) :=
  unresolved_nonfatal wFail wFailNone rfl rfl

end Macpack
